import Mathlib

/-!
# CodeArch — verification of the evidence-gathering pipeline

A shallow embedding of the core string-processing algorithms of the
CodeArch VS Code extension, together with theorems settling the frozen
claims about its specification.

Strings are modelled as `List Char` (`Str`), and the JavaScript string
operations used by the source (`String.prototype.split`, `trim`, `join`,
`slice`, `padStart`, template interpolation) are given executable models
below, so every embedded function can be evaluated on concrete inputs.
-/

set_option maxHeartbeats 1000000
set_option maxRecDepth 8000

abbrev Str := List Char

namespace CodeArch

/-! ## JavaScript string-operation models -/

/-- Whitespace recognised by `String.prototype.trim` (restricted to the
ASCII range, which is all the embedded code ever produces). -/
def isJsSpace (c : Char) : Bool :=
  c = ' ' || c = '\t' || c = '\n' || c = '\r' || c = '\x0b' || c = '\x0c'

/-- Model of `s.trim()`. -/
def jsTrim (s : Str) : Str :=
  ((s.dropWhile isJsSpace).reverse.dropWhile isJsSpace).reverse

/-- Model of `arr.join(sep)`. -/
def jsJoin (sep : Str) : List Str → Str
  | [] => []
  | [piece] => piece
  | piece :: pieces => piece ++ sep ++ jsJoin sep pieces

/-- Prepends a character to the first piece of a split result. -/
def consHead (c : Char) : List Str → List Str
  | [] => [[c]]
  | piece :: pieces => (c :: piece) :: pieces

/-- Worker for `jsSplit`: splits on the non-empty separator
`s0 :: srest`, scanning left to right and consuming the leftmost
occurrence first, exactly like `String.prototype.split` with a
non-empty string separator.  The `Nat` argument is recursion fuel:
every step consumes at least one character, so any fuel value of at
least the string length (which is what `jsSplit` supplies) computes the
true split; the fuel makes the definition structurally recursive so
that it reduces inside the kernel. -/
def splitSeq (s0 : Char) (srest : Str) : Nat → Str → List Str
  | _, [] => [[]]
  | 0, s => [s]
  | fuel + 1, c :: rest =>
    if List.isPrefixOf (s0 :: srest) (c :: rest) then
      [] :: splitSeq s0 srest fuel (rest.drop srest.length)
    else
      consHead c (splitSeq s0 srest fuel rest)

/-- Model of `s.split(sep)` for a non-empty string separator. -/
def jsSplit (sep : Str) (s : Str) : List Str :=
  match sep with
  | [] => [s]
  | s0 :: srest => splitSeq s0 srest s.length s

/-- Decimal rendering of a natural number (model of
`Number.prototype.toString` for the non-negative integers used by the
source), written with explicit fuel so it reduces definitionally. -/
def natToStrAux : Nat → Nat → Str
  | 0, _ => []
  | fuel + 1, n =>
    if n < 10 then [Char.ofNat (48 + n)]
    else natToStrAux fuel (n / 10) ++ [Char.ofNat (48 + n % 10)]

def natToStr (n : Nat) : Str := natToStrAux (n + 1) n

/-- Model of `s.padStart(width)` (pads with spaces). -/
def padStart (width : Nat) (s : Str) : Str :=
  List.replicate (width - s.length) ' ' ++ s

/-- Model of `s.replace(pat, repl)` with a single-character string
pattern: JavaScript `String.prototype.replace` with a string argument
replaces only the first occurrence. -/
def replaceFirst (pat repl : Char) : Str → Str
  | [] => []
  | c :: rest => if c = pat then repl :: rest else c :: replaceFirst pat repl rest

/-! ## Lemmas about `jsSplit` -/

theorem consHead_ne_nil (c : Char) (l : List Str) : consHead c l ≠ [] := by
  cases l <;> simp [consHead]

/-- The boolean prefix test agrees with the prefix relation. -/
theorem prefixOf_iff {l₁ l₂ : Str} : List.isPrefixOf l₁ l₂ = true ↔ l₁ <+: l₂ :=
  List.isPrefixOf_iff_prefix

theorem splitSeq_ne_nil (s0 : Char) (srest : Str) :
    ∀ (fuel : Nat) (s : Str), splitSeq s0 srest fuel s ≠ [] := by
  intro fuel
  induction fuel with
  | zero => intro s; cases s <;> simp [splitSeq]
  | succ f ih =>
    intro s
    cases s with
    | nil => simp [splitSeq]
    | cons c rest =>
      show (if List.isPrefixOf (s0 :: srest) (c :: rest) then
        [] :: splitSeq s0 srest f (rest.drop srest.length)
      else consHead c (splitSeq s0 srest f rest)) ≠ []
      by_cases hpre : List.isPrefixOf (s0 :: srest) (c :: rest)
      · rw [if_pos hpre]; simp
      · rw [if_neg hpre]; exact consHead_ne_nil c _

theorem jsSplit_ne_nil (sep s : Str) : jsSplit sep s ≠ [] := by
  cases sep with
  | nil => simp [jsSplit]
  | cons s0 srest => exact splitSeq_ne_nil s0 srest s.length s

/-- Fuel is irrelevant once it reaches the string length. -/
theorem splitSeq_fuel (s0 : Char) (srest : Str) :
    ∀ (f₁ : Nat) (s : Str) (f₂ : Nat), s.length ≤ f₁ → s.length ≤ f₂ →
      splitSeq s0 srest f₁ s = splitSeq s0 srest f₂ s := by
  intro f₁
  induction f₁ with
  | zero =>
    intro s f₂ h₁ _
    have hs : s = [] := List.eq_nil_of_length_eq_zero (Nat.le_zero.mp h₁)
    subst hs
    cases f₂ <;> rfl
  | succ f ih =>
    intro s f₂ h₁ h₂
    cases s with
    | nil => cases f₂ <;> rfl
    | cons c rest =>
      cases f₂ with
      | zero => simp at h₂
      | succ g =>
        show (if List.isPrefixOf (s0 :: srest) (c :: rest) then
            [] :: splitSeq s0 srest f (rest.drop srest.length)
          else consHead c (splitSeq s0 srest f rest)) =
          (if List.isPrefixOf (s0 :: srest) (c :: rest) then
            [] :: splitSeq s0 srest g (rest.drop srest.length)
          else consHead c (splitSeq s0 srest g rest))
        simp only [List.length_cons, Nat.add_le_add_iff_right] at h₁ h₂
        by_cases hpre : List.isPrefixOf (s0 :: srest) (c :: rest)
        · rw [if_pos hpre, if_pos hpre,
            ih (rest.drop srest.length) g
              (le_trans (List.length_drop _ _ ▸ Nat.sub_le _ _) h₁)
              (le_trans (List.length_drop _ _ ▸ Nat.sub_le _ _) h₂)]
        · rw [if_neg hpre, if_neg hpre, ih rest g h₁ h₂]

/-- Evaluating `jsSplit` through the worker at any sufficient fuel. -/
theorem jsSplit_eq_splitSeq (s0 : Char) (srest s : Str) (fuel : Nat)
    (h : s.length ≤ fuel) :
    jsSplit (s0 :: srest) s = splitSeq s0 srest fuel s :=
  splitSeq_fuel s0 srest s.length s fuel (Nat.le_refl _) h

/-- If the separator occurs nowhere in `s` (not even as an infix), the
split is the single piece `s`.  (This holds at every fuel value: the
fuel-exhausted fallback also returns `[s]`.) -/
theorem splitSeq_of_not_infix (s0 : Char) (srest : Str) :
    ∀ (fuel : Nat) (s : Str), ¬ (s0 :: srest) <:+: s →
      splitSeq s0 srest fuel s = [s] := by
  intro fuel
  induction fuel with
  | zero => intro s _; cases s <;> rfl
  | succ f ih =>
    intro s h
    cases s with
    | nil => rfl
    | cons c rest =>
      show (if List.isPrefixOf (s0 :: srest) (c :: rest) then
          [] :: splitSeq s0 srest f (rest.drop srest.length)
        else consHead c (splitSeq s0 srest f rest)) = [c :: rest]
      have hpre : ¬ List.isPrefixOf (s0 :: srest) (c :: rest) := by
        intro hp
        exact h (prefixOf_iff.mp hp).isInfix
      rw [if_neg hpre]
      have hrest : ¬ (s0 :: srest) <:+: rest :=
        fun hinf => h (hinf.trans (List.suffix_cons c rest).isInfix)
      rw [ih rest hrest]
      rfl

/-- A prefix of `x ++ y` that is no longer than `x` is a prefix of `x`. -/
theorem prefix_of_prefix_append {p x y : Str} (h : p <+: x ++ y)
    (hlen : p.length ≤ x.length) : p <+: x := by
  rw [List.prefix_iff_eq_take] at h ⊢
  rwa [List.take_append_of_le_length hlen] at h

/-- `body` is clean for `sep`: no occurrence of `sep` starts inside
`body`, even one that runs past the end of `body` into an immediately
following copy of `sep`. -/
def NoStraddle (sep body : Str) : Prop :=
  ∀ t, t <:+ body → t ≠ [] → ¬ sep <+: (t ++ sep)

instance (sep body : Str) : Decidable (NoStraddle sep body) :=
  decidable_of_iff (∀ t ∈ body.tails, t ≠ [] → ¬ sep <+: (t ++ sep)) (by
    constructor
    · intro h t ht hne
      exact h t ((List.mem_tails t body).mpr ht) hne
    · intro h t ht hne
      exact h t ((List.mem_tails t body).mp ht) hne)

theorem NoStraddle.tail {sep : Str} {c : Char} {body : Str}
    (h : NoStraddle sep (c :: body)) : NoStraddle sep body :=
  fun t ht hne => h t (ht.trans (List.suffix_cons c body)) hne

theorem noStraddle_nil (sep : Str) : NoStraddle sep [] := by
  intro t ht hne
  rw [List.suffix_nil] at ht
  exact absurd ht hne

theorem NoStraddle.not_infix {sep body : Str} (h : NoStraddle sep body)
    (hsep : sep ≠ []) : ¬ sep <:+: body := by
  rintro ⟨l₁, l₂, rfl⟩
  have hsuf : sep ++ l₂ <:+ l₁ ++ sep ++ l₂ := by
    rw [List.append_assoc]
    exact List.suffix_append l₁ (sep ++ l₂)
  have hne : sep ++ l₂ ≠ [] := by
    cases sep with
    | nil => exact absurd rfl hsep
    | cons a b => simp
  exact h (sep ++ l₂) hsuf hne
    (((List.prefix_append sep l₂).trans (List.prefix_append (sep ++ l₂) sep)))

/-- Splitting a string of the shape `body ++ sep ++ rest` where no
occurrence of `sep` starts inside `body` peels off `body` as the first
piece. -/
theorem splitSeq_append (s0 : Char) (srest : Str) :
    ∀ (body : Str) (fuel : Nat) (rest : Str),
      (body ++ (s0 :: srest) ++ rest).length ≤ fuel →
      NoStraddle (s0 :: srest) body →
      splitSeq s0 srest fuel (body ++ (s0 :: srest) ++ rest) =
        body :: splitSeq s0 srest rest.length rest := by
  intro body
  induction body with
  | nil =>
    intro fuel rest hfuel h
    rw [List.nil_append] at hfuel ⊢
    cases fuel with
    | zero => simp at hfuel
    | succ f =>
      rw [List.cons_append]
      show (if List.isPrefixOf (s0 :: srest) (s0 :: (srest ++ rest)) then
          [] :: splitSeq s0 srest f ((srest ++ rest).drop srest.length)
        else consHead s0 (splitSeq s0 srest f (srest ++ rest))) =
        [] :: splitSeq s0 srest rest.length rest
      have hpre : List.isPrefixOf (s0 :: srest) (s0 :: (srest ++ rest)) := by
        rw [prefixOf_iff]
        exact ⟨rest, by simp⟩
      rw [if_pos hpre, List.drop_left]
      have : rest.length ≤ f := by
        simp only [List.cons_append, List.length_cons, List.length_append] at hfuel
        omega
      rw [splitSeq_fuel s0 srest f rest rest.length this (Nat.le_refl _)]
  | cons c body' ih =>
    intro fuel rest hfuel h
    cases fuel with
    | zero =>
      exfalso
      simp only [List.length_append, List.length_cons] at hfuel
      omega
    | succ f =>
      rw [List.cons_append, List.cons_append]
      show (if List.isPrefixOf (s0 :: srest) (c :: (body' ++ (s0 :: srest) ++ rest)) then
          [] :: splitSeq s0 srest f ((body' ++ (s0 :: srest) ++ rest).drop srest.length)
        else consHead c (splitSeq s0 srest f (body' ++ (s0 :: srest) ++ rest))) =
        (c :: body') :: splitSeq s0 srest rest.length rest
      have hnot : ¬ List.isPrefixOf (s0 :: srest) (c :: (body' ++ (s0 :: srest) ++ rest)) := by
        rw [prefixOf_iff]
        intro hpre
        have hx : (s0 :: srest) <+: (c :: body') ++ (s0 :: srest) := by
          apply prefix_of_prefix_append (y := rest)
          · simpa [List.append_assoc] using hpre
          · simp only [List.length_cons, List.length_append]
            omega
        exact h (c :: body') (List.suffix_refl _) (by simp) hx
      rw [if_neg hnot]
      have hlen : (body' ++ (s0 :: srest) ++ rest).length ≤ f := by
        simp only [List.length_append, List.length_cons] at hfuel ⊢
        omega
      rw [ih f rest hlen h.tail]
      rfl

theorem jsSplit_append (sep body rest : Str) (hsep : sep ≠ [])
    (h : NoStraddle sep body) :
    jsSplit sep (body ++ sep ++ rest) = body :: jsSplit sep rest := by
  cases sep with
  | nil => exact absurd rfl hsep
  | cons s0 srest =>
    show splitSeq s0 srest (body ++ (s0 :: srest) ++ rest).length _ =
      body :: splitSeq s0 srest rest.length rest
    exact splitSeq_append s0 srest body _ rest (Nat.le_refl _) h

theorem jsSplit_of_not_infix (sep s : Str) (hsep : sep ≠ [])
    (h : ¬ sep <:+: s) : jsSplit sep s = [s] := by
  cases sep with
  | nil => exact absurd rfl hsep
  | cons s0 srest => exact splitSeq_of_not_infix s0 srest s.length s h

theorem jsSplit_of_noStraddle (sep s : Str) (hsep : sep ≠ [])
    (h : NoStraddle sep s) : jsSplit sep s = [s] :=
  jsSplit_of_not_infix sep s hsep (h.not_infix hsep)

/-- A single-character separator never straddles: cleanliness is just
non-membership. -/
theorem noStraddle_single {c : Char} {body : Str} (h : c ∉ body) :
    NoStraddle [c] body := by
  intro t ht hne hpre
  cases t with
  | nil => exact hne rfl
  | cons a t' =>
    obtain ⟨u, hu⟩ := hpre
    have hca : c = a := by
      have := congrArg List.head? hu
      simpa using this
    apply h
    apply ht.subset
    rw [hca]
    exact List.mem_cons_self a t'

/-- Splitting on a single character not occurring in `a`:
`(a ++ c ++ b).split(c) = a :: b.split(c)`. -/
theorem jsSplit_single_append {c : Char} (a b : Str) (h : c ∉ a) :
    jsSplit [c] (a ++ c :: b) = a :: jsSplit [c] b := by
  have := jsSplit_append [c] a b (by simp) (noStraddle_single h)
  simpa using this

theorem jsSplit_single_of_not_mem {c : Char} (s : Str) (h : c ∉ s) :
    jsSplit [c] s = [s] := by
  apply jsSplit_of_not_infix [c] s (by simp)
  rintro ⟨l₁, l₂, rfl⟩
  exact h (by simp)

theorem prefix_single_head {c c' : Char} {rest : Str}
    (hpre : List.isPrefixOf [c] (c' :: rest) = true) : c = c' := by
  rw [prefixOf_iff] at hpre
  obtain ⟨u, hu⟩ := hpre
  have := congrArg List.head? hu
  simpa using this

/-- `join(c)` undoes `split(c)` for a single-character separator (at
every fuel value: the fuel-exhausted fallback also rejoins). -/
theorem jsJoin_splitSeq_single (c : Char) :
    ∀ (fuel : Nat) (s : Str), jsJoin [c] (splitSeq c [] fuel s) = s := by
  intro fuel
  induction fuel with
  | zero => intro s; cases s <;> rfl
  | succ f ih =>
    intro s
    cases s with
    | nil => rfl
    | cons c' rest =>
      show jsJoin [c] (if List.isPrefixOf [c] (c' :: rest) then
          [] :: splitSeq c [] f (rest.drop 0)
        else consHead c' (splitSeq c [] f rest)) = c' :: rest
      by_cases hpre : List.isPrefixOf [c] (c' :: rest)
      · have hc : c = c' := prefix_single_head hpre
        rw [if_pos hpre, List.drop_zero]
        cases hsp : splitSeq c [] f rest with
        | nil => exact absurd hsp (splitSeq_ne_nil c [] f rest)
        | cons y ys =>
          have ihr := ih rest
          rw [hsp] at ihr
          show [] ++ [c] ++ jsJoin [c] (y :: ys) = c' :: rest
          rw [ihr, List.nil_append, hc]
          rfl
      · rw [if_neg hpre]
        cases hsp : splitSeq c [] f rest with
        | nil => exact absurd hsp (splitSeq_ne_nil c [] f rest)
        | cons y ys =>
          have ihr := ih rest
          rw [hsp] at ihr
          show jsJoin [c] ((c' :: y) :: ys) = c' :: rest
          cases ys with
          | nil =>
            show c' :: y = c' :: rest
            rw [show jsJoin [c] [y] = y from rfl] at ihr
            rw [ihr]
          | cons z zs =>
            show (c' :: y) ++ [c] ++ jsJoin [c] (z :: zs) = c' :: rest
            rw [show jsJoin [c] (y :: z :: zs) = y ++ [c] ++ jsJoin [c] (z :: zs) from rfl] at ihr
            simp only [List.cons_append, List.append_assoc] at ihr ⊢
            rw [ihr]

theorem jsJoin_jsSplit_single (c : Char) (s : Str) :
    jsJoin [c] (jsSplit [c] s) = s :=
  jsJoin_splitSeq_single c s.length s

/-- The number of pieces of a single-character split is the number of
occurrences of the separator plus one. -/
theorem jsSplit_single_length (c : Char) :
    ∀ (fuel : Nat) (s : Str), s.length ≤ fuel →
      (splitSeq c [] fuel s).length = s.count c + 1 := by
  intro fuel
  induction fuel with
  | zero =>
    intro s h
    have hs : s = [] := List.eq_nil_of_length_eq_zero (Nat.le_zero.mp h)
    subst hs
    simp [splitSeq]
  | succ f ih =>
    intro s h
    cases s with
    | nil => simp [splitSeq]
    | cons c' rest =>
      simp only [List.length_cons, Nat.add_le_add_iff_right] at h
      show (List.length (if List.isPrefixOf [c] (c' :: rest) then
          [] :: splitSeq c [] f (rest.drop 0)
        else consHead c' (splitSeq c [] f rest))) = (c' :: rest).count c + 1
      by_cases hpre : List.isPrefixOf [c] (c' :: rest)
      · have hc : c = c' := prefix_single_head hpre
        subst hc
        rw [if_pos hpre, List.drop_zero, List.length_cons, ih rest h,
          List.count_cons_self]
      · have hc : c ≠ c' := by
          intro hcc
          apply hpre
          rw [prefixOf_iff, hcc]
          exact ⟨rest, rfl⟩
        rw [if_neg hpre]
        cases hsp : splitSeq c [] f rest with
        | nil => exact absurd hsp (splitSeq_ne_nil c [] f rest)
        | cons y ys =>
          have ihr := ih rest h
          rw [hsp] at ihr
          show ((c' :: y) :: ys).length = (c' :: rest).count c + 1
          rw [List.count_cons_of_ne hc]
          simp only [List.length_cons] at ihr ⊢
          omega

/-! ## History Extractor (`GitAnalysis`, `src/services/gitAnalysis.ts`) -/

/-- `interface CommitRecord`.  The `author`/`date`/`message` fields are
`Option Str` because the JavaScript destructuring
`const [hash, author, date, message] = metadataLine.split(..)` yields
`undefined` for positions past the end of the split result. -/
structure CommitRecord where
  hash : Str
  author : Option Str
  date : Option Str
  message : Option Str
  lineRangeDiff : Str
  language : Str
  startLine : Nat
  endLine : Nat
deriving DecidableEq, Repr

/-- The sentinel `"===COMMIT_RECORD_START==="` inserted into the
`git log -L` format string by `GitAnalysis.performAnalysis`. -/
def separator : Str := "===COMMIT_RECORD_START===".data

/-- One iteration of the `for (const section of sections)` loop of
`GitAnalysis.parseGitLogLOutput`: `none` models both the
`!section.trim()` `continue` and a falsy (empty) `hash`. -/
def parseSection (startLine endLine : Nat) (languageId : Str) (sec : Str) :
    Option CommitRecord :=
  if jsTrim sec = [] then none
  else
    let lines := jsSplit ['\n'] sec
    let metadataLine := lines.headD []
    let parts := jsSplit ['|'] metadataLine
    let hash := parts.headD []
    let diff := jsTrim (jsJoin ['\n'] (lines.drop 1))
    if hash ≠ [] then
      some { hash := hash, author := parts.get? 1, date := parts.get? 2,
             message := parts.get? 3, lineRangeDiff := diff,
             language := languageId, startLine := startLine, endLine := endLine }
    else none

/-- `GitAnalysis.parseGitLogLOutput`: split the raw `git log -L` stdout
on the sentinel and turn each non-blank section with a non-empty hash
field into a `CommitRecord`.  The `for`-loop with conditional `push` is
a `filterMap`. -/
def parseGitLogLOutput (output sep : Str) (startLine endLine : Nat)
    (languageId : Str) : List CommitRecord :=
  (jsSplit sep output).filterMap (parseSection startLine endLine languageId)

/-- Outcome of the external `git log -L` subprocess before the
`maxBuffer` policy applies: a non-zero exit with an error message, or
the raw stdout text git produced. -/
inductive GitExec where
  | failed (msg : Str)
  | wrote (stdout : Str)
deriving DecidableEq

/-- The `maxBuffer: 10 * 1024 * 1024` option of the `execPromise` call
in `GitAnalysis.performAnalysis`. -/
def maxBufferBytes : Nat := 10 * 1024 * 1024

/-- Node `child_process.exec` with a `maxBuffer` option: the promise
rejects when the child writes more than `maxBuffer` bytes to stdout;
the output is never truncated and returned.  (String length stands in
for the byte count; the embedded strings are ASCII.) -/
def execWithMaxBuffer (cap : Nat) : GitExec → Except Str Str
  | .failed msg => .error msg
  | .wrote out =>
    if cap < out.length then .error "stdout maxBuffer length exceeded".data
    else .ok out

/-- The answers the external git CLI gives during one
`performAnalysis` call: `git rev-parse --is-inside-work-tree`,
`git rev-parse --show-toplevel`, and the `git log -L` invocation. -/
structure GitEnv where
  insideWorkTree : Bool
  repoRoot : Option Str
  gitLogL : GitExec

/-- The three `throw new Error(..)` shapes of
`GitAnalysis.performAnalysis`, tagged by their source. -/
inductive GitError where
  | notVersionControlled (msg : Str)
  | noRepositoryRoot (msg : Str)
  | historyQueryFailed (msg : Str)
deriving DecidableEq

/-- `GitAnalysis.performAnalysis` (the `git log -L` variant):
`startLine`/`endLine` are the 1-based `range.start.line + 1` /
`range.end.line + 1` values computed by the source. -/
def performAnalysis (env : GitEnv) (startLine endLine : Nat) (languageId : Str) :
    Except GitError (List CommitRecord) :=
  if !env.insideWorkTree then
    .error (.notVersionControlled "File is not inside a Git repository.".data)
  else
    match env.repoRoot with
    | none =>
      .error (.noRepositoryRoot "Could not determine the Git repository root.".data)
    | some _ =>
      match execWithMaxBuffer maxBufferBytes env.gitLogL with
      | .error msg =>
        .error (.historyQueryFailed ("Failed to analyze line history: ".data ++ msg))
      | .ok stdout =>
        .ok (parseGitLogLOutput stdout separator startLine endLine languageId)

/-! ### The shape of real `git log -L` output

To reason about what the parser does to output the git CLI can actually
produce, we render a list of reported commits into the textual stdout
format fixed by the `--format` string (§6 of the spec: the
version-control CLI returns, per matching commit, hash + author + date
+ subject + the diff restricted to the queried span). -/

/-- The data of one commit as reported by the external git CLI. -/
structure GitLogEntry where
  hash : Str
  author : Str
  date : Str
  subject : Str
  diff : Str

/-- The `%H|%an|%ad|%s` metadata line git prints for one commit. -/
def metaLine (en : GitLogEntry) : Str :=
  en.hash ++ '|' :: en.author ++ '|' :: en.date ++ '|' :: en.subject

/-- One commit section of the `git log -L` stdout: the metadata line, a
newline, then the diff body. -/
def renderSection (en : GitLogEntry) : Str :=
  metaLine en ++ '\n' :: en.diff

/-- The whole `git log -L` stdout for a list of commits; each section is
preceded by the sentinel, which the `--format` string places at the
start of every metadata line. -/
def renderGitLogL (entries : List GitLogEntry) : Str :=
  (entries.map (fun en => separator ++ renderSection en)).flatten

/-- Well-formedness of a reported commit, under which the textual
output is unambiguous to the parser: the hash is a non-blank word free
of the field separator, author and date are free of the field
separator, the metadata line contains no newline, and the sentinel does
not occur in (or straddling out of) the section text.  Real
`git log -L` output for hexadecimal hashes and sentinel-free file
contents satisfies all of these; the subject may freely contain the
field separator. -/
def EntryWF (en : GitLogEntry) : Prop :=
  en.hash ≠ [] ∧ (∀ c ∈ en.hash, isJsSpace c = false) ∧
  '|' ∉ en.hash ∧ '|' ∉ en.author ∧ '|' ∉ en.date ∧
  '\n' ∉ metaLine en ∧
  NoStraddle separator (renderSection en)

instance (en : GitLogEntry) : Decidable (EntryWF en) := by
  unfold EntryWF
  infer_instance

theorem separator_ne_nil : separator ≠ [] := by decide

/-- A string starting with a non-space character trims to something
non-empty. -/
theorem jsTrim_cons_ne_nil {c : Char} (s : Str) (h : isJsSpace c = false) :
    jsTrim (c :: s) ≠ [] := by
  intro hcon
  unfold jsTrim at hcon
  rw [List.dropWhile_cons, if_neg (by simp [h])] at hcon
  have : (c :: s).reverse.dropWhile isJsSpace = [] := by
    simpa using congrArg List.reverse hcon
  rw [List.dropWhile_eq_nil_iff] at this
  have hc := this c (by simp)
  rw [h] at hc
  exact Bool.false_ne_true hc

/-- A `filterMap` that is everywhere `some` is a `map`. -/
theorem filterMap_eq_map_of_forall {α β : Type} {f : α → Option β} {g : α → β}
    (l : List α) (h : ∀ x ∈ l, f x = some (g x)) : l.filterMap f = l.map g := by
  induction l with
  | nil => rfl
  | cons a l ih =>
    rw [List.filterMap_cons, h a (by simp), List.map_cons,
      ih (fun x hx => h x (List.mem_cons_of_mem a hx))]

/-- Splitting the rendered stdout on the sentinel yields one empty
leading piece (from the sentinel at the very start) followed by the
commit sections, in order. -/
theorem jsSplit_sections (sec0 : Str) (entries : List GitLogEntry)
    (h0 : NoStraddle separator sec0)
    (h : ∀ en ∈ entries, NoStraddle separator (renderSection en)) :
    jsSplit separator
        (sec0 ++ (entries.map (fun en => separator ++ renderSection en)).flatten) =
      sec0 :: entries.map renderSection := by
  induction entries generalizing sec0 with
  | nil =>
    rw [List.map_nil, List.flatten_nil, List.append_nil, List.map_nil]
    exact jsSplit_of_noStraddle separator sec0 separator_ne_nil h0
  | cons en rest ih =>
    rw [List.map_cons, List.flatten_cons]
    have hassoc : sec0 ++ ((separator ++ renderSection en) ++
        (rest.map (fun en => separator ++ renderSection en)).flatten) =
        sec0 ++ separator ++ (renderSection en ++
          (rest.map (fun en => separator ++ renderSection en)).flatten) := by
      simp [List.append_assoc]
    rw [hassoc, jsSplit_append separator sec0 _ separator_ne_nil h0,
      ih (renderSection en) (h en (by simp))
        (fun x hx => h x (List.mem_cons_of_mem en hx))]
    rfl

theorem jsSplit_renderGitLogL (entries : List GitLogEntry)
    (h : ∀ en ∈ entries, NoStraddle separator (renderSection en)) :
    jsSplit separator (renderGitLogL entries) =
      [] :: entries.map renderSection := by
  have := jsSplit_sections [] entries (noStraddle_nil separator) h
  simpa [renderGitLogL] using this

/-- What the parser does to one well-formed rendered commit section. -/
theorem parseSection_renderSection (s e : Nat) (lang : Str)
    (en : GitLogEntry) (h : EntryWF en) :
    parseSection s e lang (renderSection en) =
      some { hash := en.hash, author := some en.author, date := some en.date,
             message := some ((jsSplit ['|'] en.subject).headD []),
             lineRangeDiff := jsTrim en.diff, language := lang,
             startLine := s, endLine := e } := by
  obtain ⟨hne, hnospace, hp1, hp2, hp3, hnl, _⟩ := h
  obtain ⟨h0, hrest⟩ : ∃ h0 hrest, en.hash = h0 :: hrest := by
    cases hh : en.hash with
    | nil => exact absurd hh hne
    | cons a b => exact ⟨a, b, rfl⟩
  obtain ⟨hrest, hhash⟩ := hrest
  have htrim : jsTrim (renderSection en) ≠ [] := by
    have : renderSection en = h0 :: (hrest ++ '|' :: en.author ++ '|' :: en.date
        ++ '|' :: en.subject ++ '\n' :: en.diff) := by
      simp [renderSection, metaLine, hhash]
    rw [this]
    exact jsTrim_cons_ne_nil _ (hnospace h0 (by rw [hhash]; simp))
  have hlines : jsSplit ['\n'] (renderSection en) =
      metaLine en :: jsSplit ['\n'] en.diff := by
    unfold renderSection
    exact jsSplit_single_append (metaLine en) en.diff hnl
  have hparts : jsSplit ['|'] (metaLine en) =
      en.hash :: en.author :: en.date :: jsSplit ['|'] en.subject := by
    unfold metaLine
    rw [show en.hash ++ '|' :: en.author ++ '|' :: en.date ++ '|' :: en.subject =
        en.hash ++ '|' :: (en.author ++ '|' :: (en.date ++ '|' :: en.subject)) by
      simp [List.append_assoc]]
    rw [jsSplit_single_append _ _ hp1, jsSplit_single_append _ _ hp2,
      jsSplit_single_append _ _ hp3]
  unfold parseSection
  rw [if_neg htrim]
  simp only [hlines, List.headD_cons, hparts, List.drop_succ_cons, List.drop_zero]
  rw [if_pos hne]
  have hsubj : (jsSplit ['|'] en.subject)[0]? =
      some ((jsSplit ['|'] en.subject).head?.getD []) := by
    cases hsp : jsSplit ['|'] en.subject with
    | nil => exact absurd hsp (jsSplit_ne_nil _ _)
    | cons y ys => simp
  rw [jsJoin_jsSplit_single]
  simp [hsubj]

/-- Master round-trip: parsing well-formed rendered `git log -L` output
recovers exactly one record per reported commit, in order, with the
message field holding only the part of the subject before its first
field separator. -/
theorem parseGitLogLOutput_render (entries : List GitLogEntry)
    (s e : Nat) (lang : Str) (h : ∀ en ∈ entries, EntryWF en) :
    parseGitLogLOutput (renderGitLogL entries) separator s e lang =
      entries.map (fun en =>
        { hash := en.hash, author := some en.author, date := some en.date,
          message := some ((jsSplit ['|'] en.subject).headD []),
          lineRangeDiff := jsTrim en.diff, language := lang,
          startLine := s, endLine := e }) := by
  unfold parseGitLogLOutput
  rw [jsSplit_renderGitLogL entries (fun en hen => (h en hen).2.2.2.2.2.2)]
  rw [List.filterMap_cons]
  have hnil : parseSection s e lang [] = none := by
    unfold parseSection
    rw [if_pos (show jsTrim [] = [] from rfl)]
  rw [hnil, List.filterMap_map]
  exact filterMap_eq_map_of_forall entries
    (fun en hen => parseSection_renderSection s e lang en (h en hen))

/-- Parsing an empty section (as produced by the leading sentinel, or
by an empty stdout) yields no record. -/
theorem parseSection_nil (s e : Nat) (lang : Str) :
    parseSection s e lang [] = none := by
  unfold parseSection
  rw [if_pos (show jsTrim [] = [] from rfl)]

/-- An empty `git log -L` stdout parses to the empty history. -/
theorem parseGitLogLOutput_nil (s e : Nat) (lang : Str) :
    parseGitLogLOutput [] separator s e lang = [] := by
  unfold parseGitLogLOutput
  rw [show jsSplit separator [] = [[]] from by decide, List.filterMap_cons,
    parseSection_nil]
  rfl

/-! ## Claim C1 -/

/-- **C1.** The history extractor fails with the tagged
not-version-controlled error exactly when the target file is not inside
a version-controlled working tree; for a file inside a valid repository
whose line-range history query succeeds with no commits (empty stdout),
it returns an empty commit history as a success result, not an error. -/
theorem c1_not_version_controlled_vs_empty_history
    (env : GitEnv) (s e : Nat) (lang : Str) :
    (performAnalysis env s e lang =
        .error (.notVersionControlled "File is not inside a Git repository.".data) ↔
      env.insideWorkTree = false) ∧
    (∀ root, env.insideWorkTree = true → env.repoRoot = some root →
      env.gitLogL = .wrote [] →
      performAnalysis env s e lang = .ok []) := by
  constructor
  · constructor
    · intro h
      by_contra hin
      rw [Bool.not_eq_false] at hin
      unfold performAnalysis at h
      rw [hin] at h
      simp only [Bool.not_true, Bool.false_eq_true, if_false] at h
      cases hroot : env.repoRoot with
      | none => rw [hroot] at h; exact GitError.noConfusion (Except.error.inj h)
      | some root =>
        rw [hroot] at h
        cases hexec : execWithMaxBuffer maxBufferBytes env.gitLogL with
        | error msg => rw [hexec] at h; exact GitError.noConfusion (Except.error.inj h)
        | ok out => rw [hexec] at h; exact Except.noConfusion h
    · intro h
      unfold performAnalysis
      rw [h]
      rfl
  · intro root h1 h2 h3
    unfold performAnalysis
    rw [h1, h2, h3]
    show Except.ok (parseGitLogLOutput [] separator s e lang) = Except.ok []
    rw [parseGitLogLOutput_nil]

/-- Witness for C1 at concrete environments: a file outside any
repository errors with the tagged message, and an in-repository file
with empty line-range history succeeds with the empty history. -/
theorem c1_witness :
    performAnalysis ⟨false, none, .wrote []⟩ 3 5 "python".data =
        .error (.notVersionControlled "File is not inside a Git repository.".data) ∧
    performAnalysis ⟨true, some "/repo".data, .wrote []⟩ 3 5 "python".data =
        .ok [] :=
  ⟨(c1_not_version_controlled_vs_empty_history ⟨false, none, .wrote []⟩ 3 5
      "python".data).1.mpr rfl,
   (c1_not_version_controlled_vs_empty_history ⟨true, some "/repo".data, .wrote []⟩
      3 5 "python".data).2 "/repo".data rfl rfl rfl⟩

/-- Evaluation of `performAnalysis` when the exec step succeeds. -/
theorem performAnalysis_exec_ok (env : GitEnv) (s e : Nat) (lang : Str)
    (root out : Str)
    (h1 : env.insideWorkTree = true) (h2 : env.repoRoot = some root)
    (h3 : execWithMaxBuffer maxBufferBytes env.gitLogL = .ok out) :
    performAnalysis env s e lang =
      .ok (parseGitLogLOutput out separator s e lang) := by
  unfold performAnalysis
  rw [h1, h2, h3]
  rfl

/-- Evaluation of `performAnalysis` when the exec step rejects. -/
theorem performAnalysis_exec_error (env : GitEnv) (s e : Nat) (lang : Str)
    (root msg : Str)
    (h1 : env.insideWorkTree = true) (h2 : env.repoRoot = some root)
    (h3 : execWithMaxBuffer maxBufferBytes env.gitLogL = .error msg) :
    performAnalysis env s e lang =
      .error (.historyQueryFailed ("Failed to analyze line history: ".data ++ msg)) := by
  unfold performAnalysis
  rw [h1, h2, h3]
  rfl

/-! ## Claim C8 -/

/-- **C8 (counterexample).** At a concrete `git log -L` stdout one byte
over the 10 MB cap, the extractor rejects with a history-query error:
it does not return any (let alone truncated-and-flagged) commit
history, and `CommitRecord` has no `truncated` field at all.  This
refutes the claim that the extractor "truncates the output and marks
the returned CommitHistory with truncated: true". -/
theorem c8_counterexample :
    performAnalysis
        ⟨true, some "/repo".data, .wrote (List.replicate (10 * 1024 * 1024 + 1) 'a')⟩
        1 2 "typescript".data =
      .error (.historyQueryFailed
        ("Failed to analyze line history: ".data ++
          "stdout maxBuffer length exceeded".data)) := by
  have hexec : execWithMaxBuffer maxBufferBytes
      (GitExec.wrote (List.replicate (10 * 1024 * 1024 + 1) 'a')) =
      .error "stdout maxBuffer length exceeded".data := by
    simp only [execWithMaxBuffer]
    rw [if_pos (by rw [List.length_replicate]; unfold maxBufferBytes; omega)]
  exact performAnalysis_exec_error _ 1 2 "typescript".data "/repo".data _ rfl rfl hexec

/-- **C8 (amended).** The line-range history query is bounded by the
10 MB `maxBuffer` cap, but when the cap is exceeded the underlying exec
rejects and the extractor throws a history-query error; no truncation
happens and no `truncated` flag exists. -/
theorem c8_cap_rejects_oversized_output
    (env : GitEnv) (s e : Nat) (lang : Str) (root out : Str)
    (h1 : env.insideWorkTree = true) (h2 : env.repoRoot = some root)
    (h3 : env.gitLogL = .wrote out) (hbig : maxBufferBytes < out.length) :
    performAnalysis env s e lang =
      .error (.historyQueryFailed
        ("Failed to analyze line history: ".data ++
          "stdout maxBuffer length exceeded".data)) := by
  apply performAnalysis_exec_error env s e lang root _ h1 h2
  rw [h3]
  simp only [execWithMaxBuffer]
  rw [if_pos hbig]

/-- Witness for the amended C8 at a concrete over-cap output. -/
theorem c8_amended_witness :
    performAnalysis
        ⟨true, some "/r".data, .wrote (List.replicate (10 * 1024 * 1024 + 7) 'b')⟩
        4 9 "go".data =
      .error (.historyQueryFailed
        ("Failed to analyze line history: ".data ++
          "stdout maxBuffer length exceeded".data)) :=
  c8_cap_rejects_oversized_output
    ⟨true, some "/r".data, .wrote (List.replicate (10 * 1024 * 1024 + 7) 'b')⟩
    4 9 "go".data "/r".data (List.replicate (10 * 1024 * 1024 + 7) 'b')
    rfl rfl rfl
    (by rw [List.length_replicate]; unfold maxBufferBytes; omega)

/-! ## Claim C9 -/

/-- **C9 (counterexample).** The parser performs no deduplication: a
`git log -L` stdout in which the same metadata section text occurs
twice (reachable, since diff hunks reproduce raw file lines, so a file
whose own content contains the sentinel followed by a commit's metadata
line duplicates that section) yields two records with the same hash. -/
theorem c9_counterexample :
    performAnalysis
        ⟨true, some "/repo".data,
          .wrote ("===COMMIT_RECORD_START===deadbeef|ann|2020-01-01|fix\n+ x\n===COMMIT_RECORD_START===deadbeef|ann|2020-01-01|fix\n+ y".data)⟩
        1 2 "typescript".data =
      .ok
        [{ hash := "deadbeef".data, author := some "ann".data,
           date := some "2020-01-01".data, message := some "fix".data,
           lineRangeDiff := "+ x".data, language := "typescript".data,
           startLine := 1, endLine := 2 },
         { hash := "deadbeef".data, author := some "ann".data,
           date := some "2020-01-01".data, message := some "fix".data,
           lineRangeDiff := "+ y".data, language := "typescript".data,
           startLine := 1, endLine := 2 }] ∧
    ¬ (["deadbeef".data, "deadbeef".data] : List Str).Nodup := by
  constructor
  · have hexec : execWithMaxBuffer maxBufferBytes
        (GitExec.wrote ("===COMMIT_RECORD_START===deadbeef|ann|2020-01-01|fix\n+ x\n===COMMIT_RECORD_START===deadbeef|ann|2020-01-01|fix\n+ y".data)) =
        .ok ("===COMMIT_RECORD_START===deadbeef|ann|2020-01-01|fix\n+ x\n===COMMIT_RECORD_START===deadbeef|ann|2020-01-01|fix\n+ y".data) := by
      simp only [execWithMaxBuffer]
      rw [if_neg (by decide)]
    rw [performAnalysis_exec_ok _ 1 2 "typescript".data "/repo".data _ rfl rfl hexec]
    exact congrArg Except.ok (by decide)
  · decide

/-- **C9 (amended).** The parser emits one record per sentinel-delimited
section without deduplication, so hashes are pairwise distinct exactly
when the reported commits' hashes are: for every well-formed
`git log -L` output in which each commit is listed once with a distinct
hash (the normal git contract), no two parsed records share a hash. -/
theorem c9_hash_uniqueness_for_distinct_commits
    (entries : List GitLogEntry) (s e : Nat) (lang : Str)
    (hwf : ∀ en ∈ entries, EntryWF en)
    (hdist : (entries.map GitLogEntry.hash).Pairwise (· ≠ ·)) :
    ((parseGitLogLOutput (renderGitLogL entries) separator s e lang).map
      CommitRecord.hash).Pairwise (· ≠ ·) := by
  rw [parseGitLogLOutput_render entries s e lang hwf, List.map_map]
  rw [List.pairwise_map] at hdist ⊢
  exact hdist

/-- Witness for the amended C9 on a concrete two-commit output. -/
theorem c9_amended_witness :
    (∀ en ∈ [GitLogEntry.mk "aaa1".data "ann".data "2020".data "one".data "+ x".data,
             GitLogEntry.mk "bbb2".data "bob".data "2021".data "two".data "+ y".data],
      EntryWF en) ∧
    (([GitLogEntry.mk "aaa1".data "ann".data "2020".data "one".data "+ x".data,
       GitLogEntry.mk "bbb2".data "bob".data "2021".data "two".data "+ y".data].map
        GitLogEntry.hash).Pairwise (· ≠ ·)) ∧
    ((parseGitLogLOutput
        (renderGitLogL
          [GitLogEntry.mk "aaa1".data "ann".data "2020".data "one".data "+ x".data,
           GitLogEntry.mk "bbb2".data "bob".data "2021".data "two".data "+ y".data])
        separator 1 2 "go".data).map CommitRecord.hash).Pairwise (· ≠ ·) :=
  ⟨by decide, by decide,
   c9_hash_uniqueness_for_distinct_commits _ 1 2 "go".data (by decide) (by decide)⟩

/-! ## Claim C10 -/

/-- **C10.** The metadata line is split on every pipe character and the
parsed record keeps only the fourth field as its message: in general
the message of any parsed record is field three (0-based) of the pipe
split of its metadata line, and for a commit whose subject itself
contains a pipe — so the metadata line has more than three pipes — the
message is exactly the part of the subject before its first pipe, with
the rest silently dropped. -/
theorem c10_message_keeps_fourth_pipe_field
    (hash author date m1 m2 diff : Str) (s e : Nat) (lang : Str)
    (hwf : EntryWF ⟨hash, author, date, m1 ++ '|' :: m2, diff⟩)
    (hm1 : '|' ∉ m1) :
    (∀ sec r, parseSection s e lang sec = some r →
      r.message = (jsSplit ['|'] ((jsSplit ['\n'] sec).headD [])).get? 3) ∧
    3 < (metaLine ⟨hash, author, date, m1 ++ '|' :: m2, diff⟩).count '|' ∧
    parseGitLogLOutput
        (renderGitLogL [⟨hash, author, date, m1 ++ '|' :: m2, diff⟩])
        separator s e lang =
      [{ hash := hash, author := some author, date := some date,
         message := some m1, lineRangeDiff := jsTrim diff, language := lang,
         startLine := s, endLine := e }] := by
  obtain ⟨hne, hnospace, hp1, hp2, hp3, hnl, hns⟩ := hwf
  refine ⟨?_, ?_, ?_⟩
  · intro sec r hr
    unfold parseSection at hr
    by_cases htrim : jsTrim sec = []
    · rw [if_pos htrim] at hr
      exact Option.noConfusion hr
    · rw [if_neg htrim] at hr
      simp only at hr
      by_cases hhash : (jsSplit ['|'] ((jsSplit ['\n'] sec).headD [])).headD [] ≠ []
      · rw [if_pos hhash] at hr
        have := Option.some.inj hr
        rw [← this]
      · rw [if_neg hhash] at hr
        exact Option.noConfusion hr
  · have e1 : hash.count '|' = 0 := List.count_eq_zero.mpr hp1
    have e2 : author.count '|' = 0 := List.count_eq_zero.mpr hp2
    have e3 : date.count '|' = 0 := List.count_eq_zero.mpr hp3
    unfold metaLine
    simp only [List.count_append, List.count_cons_self, e1, e2, e3]
    omega
  · rw [parseGitLogLOutput_render [⟨hash, author, date, m1 ++ '|' :: m2, diff⟩]
      s e lang (by
        intro x hx
        rw [List.mem_singleton] at hx
        subst hx
        exact ⟨hne, hnospace, hp1, hp2, hp3, hnl, hns⟩)]
    rw [List.map_cons, List.map_nil]
    rw [show jsSplit ['|'] (m1 ++ '|' :: m2) = m1 :: jsSplit ['|'] m2 from
      jsSplit_single_append m1 m2 hm1]
    rfl

/-- Witness for C10 at a concrete commit whose subject contains a pipe
character. -/
theorem c10_witness :
    EntryWF ⟨"abc123".data, "ann".data, "2020".data,
      "left".data ++ '|' :: "right".data, "+ z".data⟩ ∧
    '|' ∉ "left".data ∧
    parseGitLogLOutput
        (renderGitLogL [⟨"abc123".data, "ann".data, "2020".data,
          "left".data ++ '|' :: "right".data, "+ z".data⟩])
        separator 7 9 "rust".data =
      [{ hash := "abc123".data, author := some "ann".data,
         date := some "2020".data, message := some "left".data,
         lineRangeDiff := jsTrim "+ z".data, language := "rust".data,
         startLine := 7, endLine := 9 }] :=
  ⟨by decide, by decide,
   (c10_message_keeps_fourth_pipe_field "abc123".data "ann".data "2020".data
      "left".data "right".data "+ z".data 7 9 "rust".data
      (by decide) (by decide)).2.2⟩

/-! ## Synthesis Client (`AIAnalysis`, `src/services/aiAnalysis.ts`)

The response parser `AIAnalysis.parseResponse` composes a regex match
`raw.match(/\x7b[\s\S]*\x7d/)` — which, being greedy, matches from the
first opening brace to the last closing brace of the whole string —
with `JSON.parse` and per-field `||` fallbacks.  `JSON.parse` is
modelled by a fuel-based recursive-descent parser of the JSON grammar
(objects, arrays, strings with escapes, numbers, literals; trailing
non-whitespace rejected; later duplicate keys win on lookup). -/

/-- Runtime JavaScript values produced by `JSON.parse`.  Numbers keep
their source lexeme: the embedded code never computes with numbers,
only tests truthiness, which the lexeme determines. -/
inductive Json where
  | null
  | bool (b : Bool)
  | numLit (lexeme : Str)
  | str (s : Str)
  | arr (elems : List Json)
  | obj (fields : List (Str × Json))
deriving Repr

/-- JSON insignificant whitespace. -/
def isJsonWs (c : Char) : Bool := c = ' ' || c = '\t' || c = '\n' || c = '\r'

def skipWs (s : Str) : Str := s.dropWhile isJsonWs

def hexVal (c : Char) : Option Nat :=
  if '0' ≤ c ∧ c ≤ '9' then some (c.toNat - 48)
  else if 'a' ≤ c ∧ c ≤ 'f' then some (c.toNat - 87)
  else if 'A' ≤ c ∧ c ≤ 'F' then some (c.toNat - 55)
  else none

/-- Body of a JSON string after the opening quote: returns the decoded
text and the remainder after the closing quote. -/
def parseStringBody : Str → Option (Str × Str)
  | [] => none
  | '"' :: rest => some ([], rest)
  | '\\' :: rest =>
    match rest with
    | [] => none
    | e :: rest' =>
      match e with
      | '"' => (parseStringBody rest').map (fun p => ('"' :: p.1, p.2))
      | '\\' => (parseStringBody rest').map (fun p => ('\\' :: p.1, p.2))
      | '/' => (parseStringBody rest').map (fun p => ('/' :: p.1, p.2))
      | 'b' => (parseStringBody rest').map (fun p => ('\x08' :: p.1, p.2))
      | 'f' => (parseStringBody rest').map (fun p => ('\x0c' :: p.1, p.2))
      | 'n' => (parseStringBody rest').map (fun p => ('\n' :: p.1, p.2))
      | 'r' => (parseStringBody rest').map (fun p => ('\r' :: p.1, p.2))
      | 't' => (parseStringBody rest').map (fun p => ('\t' :: p.1, p.2))
      | 'u' =>
        match rest' with
        | h1 :: h2 :: h3 :: h4 :: rest2 =>
          match hexVal h1, hexVal h2, hexVal h3, hexVal h4 with
          | some a, some b, some c, some d =>
            (parseStringBody rest2).map
              (fun p => (Char.ofNat (((a * 16 + b) * 16 + c) * 16 + d) :: p.1, p.2))
          | _, _, _, _ => none
        | _ => none
      | _ => none
  | c :: rest =>
    if c.toNat < 32 then none
    else (parseStringBody rest).map (fun p => (c :: p.1, p.2))

def spanDigits (s : Str) : Str × Str :=
  (s.takeWhile Char.isDigit, s.dropWhile Char.isDigit)

/-- Optional fraction part of a JSON number. -/
def parseFracPart : Str → Option (Str × Str)
  | '.' :: r =>
    let (ds, r') := spanDigits r
    if ds = [] then none else some ('.' :: ds, r')
  | s => some ([], s)

/-- Optional exponent part of a JSON number. -/
def parseExpPart : Str → Option (Str × Str)
  | c :: r =>
    if c = 'e' ∨ c = 'E' then
      let (sg, r1) := match r with
        | '+' :: r' => (['+'], r')
        | '-' :: r' => (['-'], r')
        | _ => ([], r)
      let (ds, r2) := spanDigits r1
      if ds = [] then none else some (c :: sg ++ ds, r2)
    else some ([], c :: r)
  | [] => some ([], [])

/-- Lex a JSON number (grammar `-?(0|[1-9][0-9]*)(\.[0-9]+)?([eE][+-]?[0-9]+)?`),
returning its lexeme and the remainder. -/
def parseNumberLexeme (s : Str) : Option (Str × Str) := do
  let (sign, s1) := match s with
    | '-' :: r => ((['-'] : Str), r)
    | _ => (([] : Str), s)
  let (ip, s2) := spanDigits s1
  if ip = [] then none
  else if 1 < ip.length ∧ ip.headD '0' = '0' then none
  else do
    let (fp, s3) ← parseFracPart s2
    let (ep, s4) ← parseExpPart s3
    some (sign ++ ip ++ fp ++ ep, s4)

mutual

/-- Recursive-descent JSON value parser (model of `JSON.parse`).  The
fuel only bounds nesting of the mutual recursion; `jsonParse` supplies
`length + 1`, which every input stays under because each recursive call
consumes at least one character first. -/
def parseJsonValue : Nat → Str → Option (Json × Str)
  | 0, _ => none
  | fuel + 1, s =>
    match skipWs s with
    | [] => none
    | '\x7b' :: rest => parseJsonMembers fuel (skipWs rest) true []
    | '[' :: rest => parseJsonElems fuel (skipWs rest) true []
    | '"' :: rest => (parseStringBody rest).map (fun p => (Json.str p.1, p.2))
    | 't' :: rest =>
      if List.isPrefixOf "rue".data rest then some (Json.bool true, rest.drop 3)
      else none
    | 'f' :: rest =>
      if List.isPrefixOf "alse".data rest then some (Json.bool false, rest.drop 4)
      else none
    | 'n' :: rest =>
      if List.isPrefixOf "ull".data rest then some (Json.null, rest.drop 3)
      else none
    | s' => (parseNumberLexeme s').map (fun p => (Json.numLit p.1, p.2))

/-- Object members after `{` (when `first` is true) or after a comma;
a closing brace is only accepted immediately when no comma is pending. -/
def parseJsonMembers : Nat → Str → Bool → List (Str × Json) → Option (Json × Str)
  | 0, _, _, _ => none
  | fuel + 1, s, first, acc =>
    match s with
    | '\x7d' :: rest => if first then some (Json.obj acc, rest) else none
    | '"' :: rest =>
      match parseStringBody rest with
      | none => none
      | some (key, r1) =>
        match skipWs r1 with
        | ':' :: r2 =>
          match parseJsonValue fuel r2 with
          | none => none
          | some (v, r3) =>
            match skipWs r3 with
            | ',' :: r4 => parseJsonMembers fuel (skipWs r4) false (acc ++ [(key, v)])
            | '\x7d' :: r4 => some (Json.obj (acc ++ [(key, v)]), r4)
            | _ => none
        | _ => none
    | _ => none

/-- Array elements after `[` (when `first` is true) or after a comma. -/
def parseJsonElems : Nat → Str → Bool → List Json → Option (Json × Str)
  | 0, _, _, _ => none
  | fuel + 1, s, first, acc =>
    match s with
    | ']' :: rest => if first then some (Json.arr acc, rest) else none
    | s' =>
      match parseJsonValue fuel s' with
      | none => none
      | some (v, r1) =>
        match skipWs r1 with
        | ',' :: r2 => parseJsonElems fuel (skipWs r2) false (acc ++ [v])
        | ']' :: r2 => some (Json.arr (acc ++ [v]), r2)
        | _ => none

end

/-- `JSON.parse`: a single JSON value with only whitespace around it. -/
def jsonParse (s : Str) : Option Json :=
  match parseJsonValue (s.length + 1) s with
  | some (v, rest) => if skipWs rest = [] then some v else none
  | none => none

/-- Index of the last closing brace of the string, if any. -/
def lastCloseIdx (raw : Str) : Option Nat :=
  (raw.reverse.findIdx? (· = '\x7d')).map (fun k => raw.length - 1 - k)

/-- Model of `raw.match(/\x7b[\s\S]*\x7d/)` from `parseResponse`: the
greedy regex matches from the first opening brace to the last closing
brace, and fails when no closing brace follows the first opening one. -/
def jsonObjectMatch (raw : Str) : Option Str :=
  match raw.findIdx? (· = '\x7b'), lastCloseIdx raw with
  | some i, some j => if i < j then some ((raw.drop i).take (j + 1 - i)) else none
  | _, _ => none

/-- `interface AIAnalysisResult`.  The fields hold runtime values: the
parsed object's properties flow through `||` unchecked, so a non-string
JSON value would reach the result; the fallbacks are strings. -/
structure AIAnalysisResult where
  intent : Json
  analysis : Json
  risk : Json
  verdict : Json
deriving Repr

/-- JavaScript property access `parsed.key` on a parsed JSON value:
`undefined` (`none`) unless the value is an object with the key; with
duplicate keys `JSON.parse` keeps the last occurrence. -/
def jsGetField (v : Json) (key : Str) : Option Json :=
  match v with
  | .obj fields => (fields.reverse.find? (fun p => p.1 == key)).map (fun p => p.2)
  | _ => none

/-- JavaScript truthiness of a parsed JSON value (an absent property is
handled at the `Option` level by `fieldOr`). -/
def jsTruthy : Json → Bool
  | .null => false
  | .bool b => b
  | .str s => !s.isEmpty
  | .numLit lexeme =>
    (lexeme.takeWhile (fun c => c != 'e' && c != 'E')).any
      (fun c => c.isDigit && c != '0')
  | .arr _ => true
  | .obj _ => true

/-- `parsed.key || fallback`. -/
def fieldOr (v : Json) (key fallback : Str) : Json :=
  match jsGetField v key with
  | some x => if jsTruthy x then x else .str fallback
  | none => .str fallback

/-- The fixed failure result of `parseResponse`: fallback strings for
three fields, the raw response verbatim as the verdict. -/
def fallbackResult (raw : Str) : AIAnalysisResult :=
  { intent := .str "Failed to parse structured intent.".data
  , analysis := .str "Failed to parse structured analysis.".data
  , risk := .str "Failed to parse structured risk.".data
  , verdict := .str raw }

/-- `AIAnalysis.parseResponse`: locate the greedy brace match, parse it
as JSON, and populate the four fields with per-field fallbacks; on no
match or parse failure return `fallbackResult`. -/
def parseResponse (raw : Str) : AIAnalysisResult :=
  match jsonObjectMatch raw with
  | some matched =>
    match jsonParse matched with
    | some parsed =>
      { intent := fieldOr parsed "intent".data "No intent detected.".data
      , analysis := fieldOr parsed "analysis".data "No logic analysis provided.".data
      , risk := fieldOr parsed "risk".data "No risk assessment provided.".data
      , verdict := fieldOr parsed "verdict".data "No verdict reached.".data }
    | none => fallbackResult raw
  | none => fallbackResult raw

/-- When the prose before contains no opening brace and the prose
after contains no closing brace, the greedy regex match recovers
exactly the embedded braced text. -/
theorem jsonObjectMatch_wrapped (pre obj post : Str)
    (hobj1 : obj.head? = some '\x7b') (hobj2 : obj.getLast? = some '\x7d')
    (hlen : 2 ≤ obj.length)
    (hpre : '\x7b' ∉ pre) (hpost : '\x7d' ∉ post) :
    jsonObjectMatch (pre ++ (obj ++ post)) = some obj := by
  have hfpre : pre.findIdx? (fun c => c = '\x7b') = none :=
    List.findIdx?_eq_none_iff.mpr
      (fun x hx => decide_eq_false (fun hxx => hpre (hxx ▸ hx)))
  have hfobj : obj.findIdx? (fun c => c = '\x7b') = some 0 := by
    cases obj with
    | nil => exact Option.noConfusion hobj1
    | cons c t =>
      have : c = '\x7b' := by simpa using hobj1
      subst this
      simp [List.findIdx?_cons]
  have hopen : (pre ++ (obj ++ post)).findIdx? (fun c => c = '\x7b') =
      some pre.length := by
    rw [List.findIdx?_append, hfpre, List.findIdx?_append, hfobj]
    simp [Option.or]
  have hfpost : post.reverse.findIdx? (fun c => c = '\x7d') = none :=
    List.findIdx?_eq_none_iff.mpr
      (fun x hx => decide_eq_false
        (fun hxx => hpost (hxx ▸ (List.mem_reverse.mp hx))))
  have hfobjr : obj.reverse.findIdx? (fun c => c = '\x7d') = some 0 := by
    have hh : obj.reverse.head? = some '\x7d' := by
      rw [List.head?_reverse]
      exact hobj2
    cases hr : obj.reverse with
    | nil => rw [hr] at hh; exact Option.noConfusion hh
    | cons c t =>
      rw [hr] at hh
      have : c = '\x7d' := by simpa using hh
      subst this
      simp [List.findIdx?_cons]
  have hclose : lastCloseIdx (pre ++ (obj ++ post)) =
      some (pre.length + (obj.length - 1)) := by
    unfold lastCloseIdx
    rw [List.reverse_append, List.reverse_append,
      List.findIdx?_append, List.findIdx?_append, hfpost, hfobjr]
    simp only [Option.or, Option.map_some', Option.map_none', Nat.zero_add,
      List.length_reverse, List.length_append]
    have : pre.length + (obj.length + post.length) - 1 - post.length =
        pre.length + (obj.length - 1) := by omega
    rw [this]
  unfold jsonObjectMatch
  rw [hopen, hclose]
  show (if pre.length < pre.length + (obj.length - 1) then
      some (((pre ++ (obj ++ post)).drop pre.length).take
        (pre.length + (obj.length - 1) + 1 - pre.length))
    else none) = some obj
  rw [if_pos (by omega)]
  have harith : pre.length + (obj.length - 1) + 1 - pre.length = obj.length := by
    omega
  rw [harith, List.drop_left, List.take_left]

/-- The concrete four-field JSON object of claim C2. -/
def c2ObjectText : Str :=
  "\x7b\"intent\":\"a\",\"analysis\":\"b\",\"risk\":\"c\",\"verdict\":\"d\"\x7d".data

/-! ## Claim C2 -/

/-- **C2 (counterexample).** Wrapping the exact four-field JSON object
in trailing prose that contains a closing brace makes the greedy match
span past the object, `JSON.parse` fails, and `parseResponse` returns
the fallback result: the parsed intent is the fallback string, not
`"a"`. -/
theorem c2_counterexample :
    parseResponse (c2ObjectText ++ " \x7d".data) =
      fallbackResult (c2ObjectText ++ " \x7d".data) ∧
    (fallbackResult (c2ObjectText ++ " \x7d".data)).intent =
      Json.str "Failed to parse structured intent.".data ∧
    ("Failed to parse structured intent.".data : Str) ≠ "a".data :=
  ⟨rfl, rfl, by decide⟩

/-- **C2 (amended).** For every wrapping of the exact response
`{"intent":"a","analysis":"b","risk":"c","verdict":"d"}` in prose whose
leading part contains no opening brace and whose trailing part contains
no closing brace, parsing yields the four fields `"a"`, `"b"`, `"c"`,
`"d"` unchanged. -/
theorem c2_roundtrip_wrapped (pre post : Str)
    (hpre : '\x7b' ∉ pre) (hpost : '\x7d' ∉ post) :
    parseResponse (pre ++ (c2ObjectText ++ post)) =
      { intent := .str "a".data, analysis := .str "b".data,
        risk := .str "c".data, verdict := .str "d".data } := by
  have hmatch : jsonObjectMatch (pre ++ (c2ObjectText ++ post)) =
      some c2ObjectText :=
    jsonObjectMatch_wrapped pre c2ObjectText post rfl rfl (by decide) hpre hpost
  unfold parseResponse
  rw [hmatch]
  rfl

/-- Witness for the amended C2 at concrete wrapping prose. -/
theorem c2_witness :
    ('\x7b' ∉ "Sure, here is the audit: ".data) ∧
    ('\x7d' ∉ " Let me know if you need more.".data) ∧
    parseResponse ("Sure, here is the audit: ".data ++
        (c2ObjectText ++ " Let me know if you need more.".data)) =
      { intent := .str "a".data, analysis := .str "b".data,
        risk := .str "c".data, verdict := .str "d".data } :=
  ⟨by decide, by decide,
   c2_roundtrip_wrapped "Sure, here is the audit: ".data
     " Let me know if you need more.".data (by decide) (by decide)⟩

/-! ## Claim C3 -/

/-- **C3.** For every backend response in which no JSON object can be
located and parsed — the brace match fails, or the matched text does
not parse as JSON — the result carries the three fixed
failed-to-parse fallback strings and the verdict is the raw response
verbatim. -/
theorem c3_fallback_on_unparseable (raw : Str)
    (h : jsonObjectMatch raw = none ∨
      ∃ m, jsonObjectMatch raw = some m ∧ jsonParse m = none) :
    parseResponse raw =
      { intent := .str "Failed to parse structured intent.".data
      , analysis := .str "Failed to parse structured analysis.".data
      , risk := .str "Failed to parse structured risk.".data
      , verdict := .str raw } := by
  unfold parseResponse
  rcases h with h | ⟨m, hm, hp⟩
  · rw [h]
    rfl
  · rw [hm]
    show (match jsonParse m with
      | some parsed =>
        { intent := fieldOr parsed "intent".data "No intent detected.".data
        , analysis := fieldOr parsed "analysis".data "No logic analysis provided.".data
        , risk := fieldOr parsed "risk".data "No risk assessment provided.".data
        , verdict := fieldOr parsed "verdict".data "No verdict reached.".data }
      | none => fallbackResult raw) = fallbackResult raw
    rw [hp]

/-- Witness for C3 at a concrete brace-free response. -/
theorem c3_witness :
    jsonObjectMatch "The model failed to answer.".data = none ∧
    parseResponse "The model failed to answer.".data =
      { intent := .str "Failed to parse structured intent.".data
      , analysis := .str "Failed to parse structured analysis.".data
      , risk := .str "Failed to parse structured risk.".data
      , verdict := .str "The model failed to answer.".data } :=
  ⟨by decide, c3_fallback_on_unparseable _ (Or.inl (by decide))⟩

/-! ## Evidence Assembler: target-code snippet
(`AIAnalysis.extractTargetCode`, `src/services/aiAnalysis.ts`) -/

/-- Model of `arr.map((x, i) => ..)`: map with the element index,
starting from `i`. -/
def mapWithIndex (f : Nat → α → β) : Nat → List α → List β
  | _, [] => []
  | i, a :: l => f i a :: mapWithIndex f (i + 1) l

/-- One rendered snippet line
`` `${prefix} ${actualLineNum.toString().padStart(4)} | ${line}` ``:
the marker is `>` exactly when the absolute line number lies inside the
selection, a space otherwise. -/
def renderSnippetLine (rangeStart rangeEnd actualLineNum : Nat) (line : Str) : Str :=
  (if rangeStart ≤ actualLineNum ∧ actualLineNum ≤ rangeEnd then ['>'] else [' ']) ++
    ' ' :: (padStart 4 (natToStr actualLineNum) ++ ' ' :: '|' :: ' ' :: line)

/-- `AIAnalysis.extractTargetCode`: `rangeStart`/`rangeEnd` are the
1-based selection bounds the source passes in `lineRange`.  Nat
subtraction in `rangeStart - 6` matches `Math.max(0, range.start - 6)`,
and `take (stop - start)` matches `lines.slice(start, end)`. -/
def extractTargetCode (text : Str) (rangeStart rangeEnd : Nat) : Str :=
  let lines := jsSplit ['\n'] text
  let start := rangeStart - 6
  let stop := min lines.length (rangeEnd + 6)
  let window := (lines.drop start).take (stop - start)
  jsJoin ['\n']
    (mapWithIndex (fun i line => renderSnippetLine rangeStart rangeEnd (start + i + 1) line)
      0 window)

/-- Modelled from the spec: the claimed rendering whose context window
is six lines above and six lines below the selection (clamped), i.e.
whose first rendered absolute line number is `rangeStart - 6` — one
more line of leading context than the code's `rangeStart - 6` 0-based
slice start produces. -/
def specTargetCode (text : Str) (rangeStart rangeEnd : Nat) : Str :=
  let lines := jsSplit ['\n'] text
  let start := rangeStart - 7
  let stop := min lines.length (rangeEnd + 6)
  let window := (lines.drop start).take (stop - start)
  jsJoin ['\n']
    (mapWithIndex (fun i line => renderSnippetLine rangeStart rangeEnd (start + i + 1) line)
      0 window)

theorem mapWithIndex_eq_range'_map {α β : Type} (f : Nat → α → β) (d : α) :
    ∀ (w : List α) (i : Nat),
      mapWithIndex f i w =
        (List.range' i w.length).map (fun j => f j (w.getD (j - i) d)) := by
  intro w
  induction w with
  | nil => intro i; rfl
  | cons a t ih =>
    intro i
    rw [mapWithIndex, List.length_cons, List.range'_succ, List.map_cons]
    rw [Nat.sub_self]
    rw [show (a :: t).getD 0 d = a from rfl]
    rw [ih (i + 1)]
    congr 1
    apply List.map_congr_left
    intro j hj
    have hjge : i + 1 ≤ j := (List.mem_range'_1.mp hj).1
    have : j - i = (j - (i + 1)) + 1 := by omega
    rw [this]
    rfl

theorem range'_map_shift {β : Type} (F : Nat → β) (a : Nat) :
    ∀ (k s : Nat),
      (List.range' s k).map (fun j => F (a + j)) = (List.range' (a + s) k).map F := by
  intro k
  induction k with
  | zero => intro s; rfl
  | succ m ih =>
    intro s
    rw [List.range'_succ, List.range'_succ, List.map_cons, List.map_cons, ih (s + 1)]
    rw [show a + (s + 1) = a + s + 1 from by omega]

/-- Elements of the sliced window come from the underlying list at the
shifted position. -/
theorem getD_take_drop {α : Type} (l : List α) (lo k j : Nat) (d : α)
    (hj : j < k) : ((l.drop lo).take k).getD j d = l.getD (lo + j) d := by
  simp only [List.getD, List.get?_eq_getElem?, List.getElem?_take,
    List.getElem?_drop, if_pos hj]

/-! ## Claim C5 -/

/-- **C5 (counterexample).** On a concrete 20-line document with the
selection on line 7, the rendered snippet differs from the
spec-claimed rendering with six lines of context above: the code's
first rendered line is line 2 (five lines above the selection), not
line 1. -/
theorem c5_counterexample :
    extractTargetCode
        "l01\nl02\nl03\nl04\nl05\nl06\nl07\nl08\nl09\nl10\nl11\nl12\nl13\nl14\nl15\nl16\nl17\nl18\nl19\nl20".data
        7 7 ≠
      specTargetCode
        "l01\nl02\nl03\nl04\nl05\nl06\nl07\nl08\nl09\nl10\nl11\nl12\nl13\nl14\nl15\nl16\nl17\nl18\nl19\nl20".data
        7 7 := by
  decide

/-- **C5 (amended).** For every document and 1-based selection within
it, the rendered snippet consists of lines `rangeStart - 6 + 1` (in
1-based terms `max 1 (rangeStart - 5)`, i.e. five lines of context
above the selection, clamped at the top of the file) through
`min lineCount (rangeEnd + 6)` (six lines below, clamped at the
bottom), each rendered with its absolute line number and a marker that
is `>` exactly for the selected lines and a space otherwise, around the
original line content. -/
theorem c5_snippet_window (text : Str) (s e : Nat)
    (h1 : 1 ≤ s) (h2 : s ≤ e) (h3 : e ≤ (jsSplit ['\n'] text).length) :
    extractTargetCode text s e =
      jsJoin ['\n']
        ((List.range' (s - 6 + 1)
            (min (jsSplit ['\n'] text).length (e + 6) - (s - 6))).map
          (fun num =>
            renderSnippetLine s e num ((jsSplit ['\n'] text).getD (num - 1) []))) := by
  simp only [extractTargetCode]
  have hsn : s ≤ (jsSplit ['\n'] text).length := le_trans h2 h3
  have hbound : (s - 6) + (min (jsSplit ['\n'] text).length (e + 6) - (s - 6)) ≤
      (jsSplit ['\n'] text).length := by
    have := Nat.min_le_left (jsSplit ['\n'] text).length (e + 6)
    omega
  have hwlen : (((jsSplit ['\n'] text).drop (s - 6)).take
      (min (jsSplit ['\n'] text).length (e + 6) - (s - 6))).length =
      min (jsSplit ['\n'] text).length (e + 6) - (s - 6) := by
    rw [List.length_take, List.length_drop]
    omega
  rw [mapWithIndex_eq_range'_map _ ([] : Str), hwlen]
  congr 1
  have hstep1 : ∀ j ∈ List.range' 0 (min (jsSplit ['\n'] text).length (e + 6) - (s - 6)),
      renderSnippetLine s e (s - 6 + j + 1)
          ((((jsSplit ['\n'] text).drop (s - 6)).take
            (min (jsSplit ['\n'] text).length (e + 6) - (s - 6))).getD (j - 0) []) =
        renderSnippetLine s e (s - 6 + j + 1)
          ((jsSplit ['\n'] text).getD (s - 6 + j) []) := by
    intro j hj
    have hjlt : j < min (jsSplit ['\n'] text).length (e + 6) - (s - 6) := by
      have := List.mem_range'_1.mp hj
      omega
    rw [Nat.sub_zero, getD_take_drop _ _ _ _ _ hjlt]
  rw [List.map_congr_left hstep1]
  have := range'_map_shift
    (fun num => renderSnippetLine s e num ((jsSplit ['\n'] text).getD (num - 1) []))
    (s - 6 + 1) (min (jsSplit ['\n'] text).length (e + 6) - (s - 6)) 0
  rw [Nat.add_zero] at this
  rw [← this]
  apply List.map_congr_left
  intro j hj
  have : s - 6 + 1 + j - 1 = s - 6 + j := by omega
  rw [this]
  rw [show s - 6 + 1 + j = s - 6 + j + 1 from by omega]

/-- Witness for the amended C5 on a concrete 20-line document with the
selection on line 7: the window runs from line 2 through line 13. -/
theorem c5_witness :
    (1 ≤ 7 ∧ 7 ≤ 7 ∧
      7 ≤ (jsSplit ['\n'] "l01\nl02\nl03\nl04\nl05\nl06\nl07\nl08\nl09\nl10\nl11\nl12\nl13\nl14\nl15\nl16\nl17\nl18\nl19\nl20".data).length) ∧
    extractTargetCode
        "l01\nl02\nl03\nl04\nl05\nl06\nl07\nl08\nl09\nl10\nl11\nl12\nl13\nl14\nl15\nl16\nl17\nl18\nl19\nl20".data
        7 7 =
      jsJoin ['\n']
        ((List.range' 2 12).map
          (fun num =>
            renderSnippetLine 7 7 num
              ((jsSplit ['\n'] "l01\nl02\nl03\nl04\nl05\nl06\nl07\nl08\nl09\nl10\nl11\nl12\nl13\nl14\nl15\nl16\nl17\nl18\nl19\nl20".data).getD
                (num - 1) []))) :=
  ⟨⟨by decide, by decide, by decide⟩,
   c5_snippet_window
     "l01\nl02\nl03\nl04\nl05\nl06\nl07\nl08\nl09\nl10\nl11\nl12\nl13\nl14\nl15\nl16\nl17\nl18\nl19\nl20".data
     7 7 (by decide) (by decide) (by decide)⟩

/-! ## Usage Correlator (`LSPCallGraphService.getReferences`,
`src/services/chatService.ts`) and prompt assembly
(`AIAnalysis.constructPrompt`, `src/services/aiAnalysis.ts`) -/

/-- A reference location as the editor host reports it. -/
structure Location where
  filePath : Str
  line : Nat
  column : Nat
deriving DecidableEq, Repr

/-- Outcome of
`vscode.commands.executeCommand(\x27vscode.executeReferenceProvider\x27, ..)`:
no provider registered for the language (the command resolves with an
undefined or empty result), an exception, or a provider result list. -/
inductive ReferenceProviderOutcome where
  | unavailable
  | threw (msg : Str)
  | returned (locations : List Location)

/-- `LSPCallGraphService.getReferences`: returns the provider output
unchanged, with `|| []` for an undefined result and the `catch` branch
returning `[]`.  No filtering of any kind — in particular none of the
declaration site — is performed, and the unavailable-provider case is
indistinguishable from an empty provider result. -/
def getReferences : ReferenceProviderOutcome → List Location
  | .unavailable => []
  | .threw _ => []
  | .returned locations => locations

/-- Modelled from the spec: the orchestrator glue (the extension entry
point calling `AIAnalysis.analyze`, not present under `src/`) renders
each reference site `(filePath, line, column)` from the host (§6) as a
display string before handing the list to `constructPrompt`.  The
format is irrelevant to the claims, which only count entries. -/
def renderLocation (loc : Location) : Str :=
  loc.filePath ++ ':' :: natToStr loc.line ++ ':' :: natToStr loc.column

/-- Modelled from the spec (§4.3): the claimed self-reference filter,
dropping every reference whose file and position exactly equal the
declaration site.  The code under `src/` contains no such filter; this
definition exists to contrast with `getReferences`. -/
def specFilterSelfReferences (decl : Location) (refs : List Location) : List Location :=
  refs.filter (fun r => !(r == decl))

/-- The fixed zero-reference line of `AIAnalysis.constructPrompt`. -/
def orphanedLine : Str :=
  "ORPHANED CODE: This code has 0 project-wide references. It is not being called anywhere else in the workspace.".data

/-- The `usageStats` template literal of `AIAnalysis.constructPrompt`
(lines 206–208): `ACTIVE USAGE` whenever the reference list is
non-empty, the `ORPHANED CODE` line whenever it is empty.  There is no
other branch: no capability flag reaches this code and no
usage-unknown rendering exists. -/
def usageStats (references : List Str) : Str :=
  if references.length > 0 then
    "ACTIVE USAGE: Found ".data ++ (natToStr references.length ++
      " project-wide reference(s). Some locations include:\n".data ++
      (jsJoin ['\n'] ((references.take 10).map (fun r => '-' :: ' ' :: r)) ++
        (if references.length > 10 then
          "\n...and ".data ++ natToStr (references.length - 10) ++
            " more places.".data
        else [])))
  else
    orphanedLine

/-- JavaScript template interpolation of a possibly-undefined value:
`undefined` renders as the text `undefined`. -/
def jsInterp : Option Str → Str
  | some s => s
  | none => "undefined".data

/-- One entry of the `historyEvidence` block of
`AIAnalysis.constructPrompt` (hash shortened to seven characters). -/
def historyEntry (c : CommitRecord) : Str :=
  "Commit: ".data ++ (c.hash.take 7 ++
    ("\nAuthor: ".data ++ (jsInterp c.author ++
      ("\nDate: ".data ++ (jsInterp c.date ++
        ("\nMessage: \"".data ++ (jsInterp c.message ++
          ("\"\nDiff:\n".data ++ c.lineRangeDiff))))))))

/-- Line/column span of a syntax node or scope, 1-based lines. -/
structure ScopeRange where
  startLine : Nat
  startColumn : Nat
  endLine : Nat
  endColumn : Nat
deriving DecidableEq, Repr

/-- `interface EnclosingScope` from `src/services/treesitterAnalysis.ts`
(the optional `nameRange` field is omitted: no claim concerns it). -/
structure EnclosingScope where
  type : Str
  name : Str
  range : ScopeRange
deriving DecidableEq, Repr

/-- The `scoopContext` line of `AIAnalysis.constructPrompt`:
`s.type.replace(..)` with a string pattern replaces only the first
underscore. -/
def scoopContext (scopes : List EnclosingScope) : Str :=
  jsJoin " -> ".data
    (scopes.map (fun sc => replaceFirst '_' ' ' sc.type ++ ':' :: ' ' :: sc.name))

/-- `AIAnalysis.constructPrompt`: the full prompt template. -/
def constructPrompt (documentText relativePath : Str) (lineStart lineEnd : Nat)
    (commits : List CommitRecord) (scopes : List EnclosingScope)
    (references : List Str) : Str :=
  let targetCode := extractTargetCode documentText lineStart lineEnd
  let historyEvidence := jsJoin "\n\n---\n\n".data (commits.map historyEntry)
  "### SYSTEM ROLE\nYou are a senior code auditor. Synthesize code, history, and usage data into a structured audit.\n\n### 1. THE CODE (CURRENT STATE)\nFile: ".data ++
  relativePath ++
  "\nContext: ".data ++ scoopContext scopes ++
  "\nTarget Range: Lines ".data ++ natToStr lineStart ++
  " to ".data ++ natToStr lineEnd ++
  "\n\nCode Snapshot (\">\" indicates target lines):\n".data ++ targetCode ++
  "\n\n### 2. THE HISTORY (EVIDENCE)\n".data ++ historyEvidence ++
  "\n\n### 3. THE USAGE (BLAST RADIUS)\n".data ++ usageStats references ++
  "\n\n### YOUR TASK\nRespond ONLY with a JSON object containing the following keys (values should be valid Markdown strings):\n\x7b\n  \"intent\": \"Why does this line exist? Focus on the hidden intent discovered through the git history compared to the current code.\",\n  \"analysis\": \"Identify code smells, accidental remains of temporary fixes (e.g., \x27hack\x27, \x27temporary workaround\x27), forgotten debug logic, or inconsistencies between the history and current implementation.\",\n  \"risk\": \"What is the risk or technical debt associated with this line, considering its current usage?\",\n  \"verdict\": \"A concise one-sentence conclusion (e.g., \x27Refactor suggested to clarify intent\x27, or \x27Risk is low but watch for side effects\x27).\"\n\x7d".data

/-! ## Claim C6 -/

/-- **C6 (counterexample).** When no reference provider is available
for the language, `getReferences` yields the same empty list as a
confirmed zero-reference provider result, and the assembled usage line
is the `ORPHANED CODE` assertion — not a neutral usage-unknown line,
which occurs nowhere in the rendered text. -/
theorem c6_counterexample :
    getReferences .unavailable = getReferences (.returned []) ∧
    usageStats ((getReferences .unavailable).map renderLocation) = orphanedLine ∧
    ¬ ("usage unknown".data <:+:
        usageStats ((getReferences .unavailable).map renderLocation)) := by
  refine ⟨rfl, rfl, ?_⟩
  decide

/-- **C6 (amended).** The prompt renders `ACTIVE USAGE` exactly when
the reference list is non-empty and the `ORPHANED CODE` line exactly
when it is empty; an unavailable reference capability produces the
empty list and is therefore rendered identically to a confirmed
zero-reference result, and the usage line is embedded verbatim in the
assembled prompt. -/
theorem c6_usage_rendering (references : List Str) :
    getReferences .unavailable = ([] : List Location) ∧
    (references = [] → usageStats references = orphanedLine) ∧
    (references ≠ [] → "ACTIVE USAGE: Found ".data <+: usageStats references) ∧
    (∀ documentText relativePath lineStart lineEnd commits scopes,
      ∃ before after,
        constructPrompt documentText relativePath lineStart lineEnd commits
          scopes references = before ++ usageStats references ++ after) := by
  refine ⟨rfl, ?_, ?_, ?_⟩
  · intro h
    subst h
    rfl
  · intro h
    unfold usageStats
    rw [if_pos (by
      cases references with
      | nil => exact absurd rfl h
      | cons a t => simp)]
    exact List.prefix_append _ _
  · intro documentText relativePath lineStart lineEnd commits scopes
    refine ⟨"### SYSTEM ROLE\nYou are a senior code auditor. Synthesize code, history, and usage data into a structured audit.\n\n### 1. THE CODE (CURRENT STATE)\nFile: ".data ++
      relativePath ++
      "\nContext: ".data ++ scoopContext scopes ++
      "\nTarget Range: Lines ".data ++ natToStr lineStart ++
      " to ".data ++ natToStr lineEnd ++
      "\n\nCode Snapshot (\">\" indicates target lines):\n".data ++
      extractTargetCode documentText lineStart lineEnd ++
      "\n\n### 2. THE HISTORY (EVIDENCE)\n".data ++
      jsJoin "\n\n---\n\n".data (commits.map historyEntry) ++
      "\n\n### 3. THE USAGE (BLAST RADIUS)\n".data,
      "\n\n### YOUR TASK\nRespond ONLY with a JSON object containing the following keys (values should be valid Markdown strings):\n\x7b\n  \"intent\": \"Why does this line exist? Focus on the hidden intent discovered through the git history compared to the current code.\",\n  \"analysis\": \"Identify code smells, accidental remains of temporary fixes (e.g., \x27hack\x27, \x27temporary workaround\x27), forgotten debug logic, or inconsistencies between the history and current implementation.\",\n  \"risk\": \"What is the risk or technical debt associated with this line, considering its current usage?\",\n  \"verdict\": \"A concise one-sentence conclusion (e.g., \x27Refactor suggested to clarify intent\x27, or \x27Risk is low but watch for side effects\x27).\"\n\x7d".data, ?_⟩
    simp only [constructPrompt, List.append_assoc]

/-- Witness for the amended C6: the empty list renders the orphaned
line, a one-element list renders an active-usage line. -/
theorem c6_witness :
    (getReferences .unavailable = ([] : List Location)) ∧
    usageStats [] = orphanedLine ∧
    "ACTIVE USAGE: Found ".data <+: usageStats ["- a.ts:1:1".data] :=
  ⟨(c6_usage_rendering []).1,
   (c6_usage_rendering []).2.1 rfl,
   (c6_usage_rendering ["- a.ts:1:1".data]).2.2.1 (by decide)⟩

/-! ## Claim C7 -/

/-- **C7 (counterexample).** A usage computation in which the reference
provider, anchored at the declaration site `/w/a.ts:10:4`, returns
exactly that declaration site: `getReferences` keeps it, the formatted
reference list has length 1, and the prompt reports
`ACTIVE USAGE: Found 1 ..` rather than the claimed count of 0. -/
theorem c7_counterexample :
    getReferences (.returned [⟨"/w/a.ts".data, 10, 4⟩]) =
      [⟨"/w/a.ts".data, 10, 4⟩] ∧
    ((getReferences (.returned [⟨"/w/a.ts".data, 10, 4⟩])).map renderLocation).length = 1 ∧
    usageStats ((getReferences (.returned [⟨"/w/a.ts".data, 10, 4⟩])).map renderLocation) =
      "ACTIVE USAGE: Found 1 project-wide reference(s). Some locations include:\n- /w/a.ts:10:4".data := by
  refine ⟨rfl, rfl, ?_⟩
  decide

/-- **C7 (amended).** No self-reference filtering exists anywhere in
the pipeline: `getReferences` returns the provider list unchanged, so a
declaration-only result is counted as one reference; the filter the
spec describes (here `specFilterSelfReferences`, modelled from §4.3)
would instead leave zero. -/
theorem c7_no_self_reference_filtering (locs : List Location) (decl : Location) :
    getReferences (.returned locs) = locs ∧
    ((getReferences (.returned [decl])).map renderLocation).length = 1 ∧
    specFilterSelfReferences decl [decl] = [] := by
  refine ⟨rfl, rfl, ?_⟩
  unfold specFilterSelfReferences
  rw [List.filter_cons]
  simp

/-! ## Scope Resolver (`TreeSitterAnalysis.getScopeInfo`,
`src/services/treesitterAnalysis.ts`)

The web-tree-sitter module is an external native parser (§6 of the
spec).  Its syntax tree is modelled as an inductive of nodes carrying a
grammar type, a resolved name (standing for the output of
`getScopeDetails`, whose grammar-field lookup is outside the span
model and irrelevant to the range claims), byte-index span, and
children.  Node row/column positions are derived from the document
text, which is the tree-sitter invariant that a node's `startPosition`
is the position of its `startIndex`. -/

/-- A concrete syntax tree node. -/
inductive Tree where
  | node (ty : Str) (name : Str) (startIdx endIdx : Nat) (children : List Tree)

def Tree.ty : Tree → Str
  | .node ty _ _ _ _ => ty

def Tree.name : Tree → Str
  | .node _ name _ _ _ => name

def Tree.startIdx : Tree → Nat
  | .node _ _ a _ _ => a

def Tree.endIdx : Tree → Nat
  | .node _ _ _ b _ => b

def Tree.children : Tree → List Tree
  | .node _ _ _ _ cs => cs

mutual

/-- Node count of a tree; used as fuel for the descent (any bound of at
least the tree height works, and the node count is one). -/
def Tree.size : Tree → Nat
  | .node _ _ _ _ cs => 1 + Tree.sizeList cs

def Tree.sizeList : List Tree → Nat
  | [] => 0
  | c :: rest => Tree.size c + Tree.sizeList rest

end

/-- Byte-index containment of the query range in a node
(tree-sitter half-open spans). -/
def containsRange (s e : Nat) (t : Tree) : Bool :=
  decide (t.startIdx ≤ s) && decide (e ≤ t.endIdx)

/-- `tree.rootNode.descendantForIndex(startIndex, endIndex)` reaches the
smallest node containing the range by descending into a containing
child while one exists; this is the node path from the root down to
that descendant, which is exactly the `node.parent` chain the `while`
loop of `getScopeInfo` walks back up.  Fuel-based (any fuel at least
the tree height is enough; `getScopeInfo` passes the node count). -/
def descendPath (s e : Nat) : Nat → Tree → List Tree
  | 0, t => [t]
  | fuel + 1, t =>
    match t.children.find? (containsRange s e) with
    | some c => t :: descendPath s e fuel c
    | none => [t]

/-- `TreeSitterAnalysis.isInterestingScope`. -/
def interestingTypes : List Str :=
  ["function_declaration".data, "method_definition".data,
   "class_declaration".data, "arrow_function".data,
   "function_expression".data, "interface_declaration".data,
   "enum_declaration".data, "module_declaration".data,
   "namespace_definition".data]

/-- JS `String.includes`: `strIncludes pat s` is true iff `pat` occurs
contiguously in `s` (scan every suffix for a prefix match). -/
def strIncludes (pat : Str) : Str → Bool
  | [] => List.isPrefixOf pat []
  | c :: rest => List.isPrefixOf pat (c :: rest) || strIncludes pat rest

def isInterestingScope (ty : Str) : Bool :=
  interestingTypes.contains ty ||
    strIncludes "declaration".data ty || strIncludes "definition".data ty

/-- Row/column of byte offset `i` in the document text (0-based row and
column, counting a newline as ending its row), with explicit
accumulator. -/
def posAtAux : Str → Nat → Nat × Nat → Nat × Nat
  | _, 0, p => p
  | [], _ + 1, p => p
  | c :: cs, i + 1, p =>
    posAtAux cs i (if c = '\n' then (p.1 + 1, 0) else (p.1, p.2 + 1))

def posAt (text : Str) (i : Nat) : Nat × Nat := posAtAux text i (0, 0)

/-- The `EnclosingScope` record pushed for one interesting node:
1-based lines (`row + 1`), raw columns. -/
def nodeScope (text : Str) (t : Tree) : EnclosingScope :=
  { type := t.ty, name := t.name,
    range := { startLine := (posAt text t.startIdx).1 + 1,
               startColumn := (posAt text t.startIdx).2,
               endLine := (posAt text t.endIdx).1 + 1,
               endColumn := (posAt text t.endIdx).2 } }

/-- `TreeSitterAnalysis.getScopeInfo`: walk from
`descendantForIndex(startIndex, endIndex)` up through the parents
(equivalently, the reversed root-to-descendant path), keeping the
interesting scopes, innermost first. -/
def getScopeInfo (text : Str) (tree : Tree) (startIndex endIndex : Nat) :
    List EnclosingScope :=
  ((descendPath startIndex endIndex tree.size tree).reverse.filter
    (fun t => isInterestingScope t.ty)).map (nodeScope text)

/-- Span well-formedness of a tree (the tree-sitter guarantee): every
child lies within its parent span.  Fuel-based so it evaluates; any
fuel at least the tree height is sufficient, and the theorems quantify
over it. -/
def spanWF : Nat → Tree → Bool
  | 0, _ => false
  | fuel + 1, .node _ _ a b cs =>
    cs.all (fun c => decide (a ≤ c.startIdx) && decide (c.endIdx ≤ b) && spanWF fuel c)

/-- Lexicographic order on (row, column) positions. -/
def lexLe (p q : Nat × Nat) : Prop :=
  p.1 < q.1 ∨ (p.1 = q.1 ∧ p.2 ≤ q.2)

theorem lexLe_refl (p : Nat × Nat) : lexLe p p := Or.inr ⟨rfl, Nat.le_refl _⟩

theorem lexLe_trans {p q r : Nat × Nat} (h1 : lexLe p q) (h2 : lexLe q r) :
    lexLe p r := by
  rcases h1 with h1 | ⟨h1a, h1b⟩ <;> rcases h2 with h2 | ⟨h2a, h2b⟩
  · exact Or.inl (lt_trans h1 h2)
  · exact Or.inl (h2a ▸ h1)
  · exact Or.inl (h1a ▸ h2)
  · exact Or.inr ⟨h1a.trans h2a, h1b.trans h2b⟩

/-- The position accumulator never decreases. -/
theorem posAtAux_ge : ∀ (text : Str) (i : Nat) (p : Nat × Nat),
    lexLe p (posAtAux text i p) := by
  intro text
  induction text with
  | nil => intro i p; cases i <;> exact lexLe_refl _
  | cons c cs ih =>
    intro i p
    cases i with
    | zero => exact lexLe_refl _
    | succ i' =>
      rw [posAtAux]
      refine lexLe_trans ?_ (ih i' _)
      by_cases hc : c = '\n'
      · rw [if_pos hc]
        exact Or.inl (Nat.lt_succ_self _)
      · rw [if_neg hc]
        exact Or.inr ⟨rfl, Nat.le_succ _⟩

/-- Positions are monotone in the byte offset. -/
theorem posAtAux_mono : ∀ (text : Str) (i j : Nat) (p : Nat × Nat), i ≤ j →
    lexLe (posAtAux text i p) (posAtAux text j p) := by
  intro text
  induction text with
  | nil =>
    intro i j p _
    cases i <;> cases j <;> exact lexLe_refl _
  | cons c cs ih =>
    intro i j p hij
    cases i with
    | zero => exact posAtAux_ge (c :: cs) j p
    | succ i' =>
      cases j with
      | zero => omega
      | succ j' =>
        rw [posAtAux, posAtAux]
        exact ih i' j' _ (Nat.succ_le_succ_iff.mp hij)

theorem posAt_mono (text : Str) {i j : Nat} (h : i ≤ j) :
    lexLe (posAt text i) (posAt text j) :=
  posAtAux_mono text i j (0, 0) h

/-- 1-based position of a byte offset, as rendered into scope ranges. -/
def oneBasedPos (text : Str) (i : Nat) : Nat × Nat :=
  ((posAt text i).1 + 1, (posAt text i).2)

theorem oneBasedPos_mono (text : Str) {i j : Nat} (h : i ≤ j) :
    lexLe (oneBasedPos text i) (oneBasedPos text j) := by
  rcases posAt_mono text h with h1 | ⟨h1, h2⟩
  · exact Or.inl (Nat.succ_lt_succ h1)
  · exact Or.inr ⟨congrArg (fun n => n + 1) h1, h2⟩

/-- A scope range contains a position range. -/
def scopeContains (sc : EnclosingScope) (ps pe : Nat × Nat) : Prop :=
  lexLe (sc.range.startLine, sc.range.startColumn) ps ∧
    lexLe pe (sc.range.endLine, sc.range.endColumn)

/-- One scope range lies within another. -/
def rangeWithin (r1 r2 : ScopeRange) : Prop :=
  lexLe (r2.startLine, r2.startColumn) (r1.startLine, r1.startColumn) ∧
    lexLe (r1.endLine, r1.endColumn) (r2.endLine, r2.endColumn)

/-- One node span lies within another. -/
abbrev spanWithin (u v : Tree) : Prop :=
  v.startIdx ≤ u.startIdx ∧ u.endIdx ≤ v.endIdx

theorem spanWF_children {fuel : Nat} {ty name : Str} {a b : Nat}
    {cs : List Tree} (h : spanWF (fuel + 1) (.node ty name a b cs) = true) :
    ∀ c ∈ cs, a ≤ c.startIdx ∧ c.endIdx ≤ b ∧ spanWF fuel c = true := by
  intro c hc
  rw [spanWF, List.all_eq_true] at h
  have := h c hc
  simp only [Bool.and_eq_true, decide_eq_true_eq] at this
  exact ⟨this.1.1, this.1.2, this.2⟩

/-- Every node on the descent path contains the query range. -/
theorem descendPath_contains (s e : Nat) :
    ∀ (fuel : Nat) (t : Tree), containsRange s e t = true →
      ∀ u ∈ descendPath s e fuel t, containsRange s e u = true := by
  intro fuel
  induction fuel with
  | zero =>
    intro t ht u hu
    rw [descendPath, List.mem_singleton] at hu
    exact hu ▸ ht
  | succ f ih =>
    intro t ht u hu
    rw [descendPath] at hu
    cases hfind : t.children.find? (containsRange s e) with
    | none =>
      rw [hfind, List.mem_singleton] at hu
      exact hu ▸ ht
    | some c =>
      rw [hfind, List.mem_cons] at hu
      rcases hu with hu | hu
      · exact hu ▸ ht
      · exact ih c (List.find?_some hfind) u hu

/-- Every node on the descent path lies within the root it starts at. -/
theorem descendPath_within (s e : Nat) :
    ∀ (fuel fuelWF : Nat) (t : Tree), spanWF fuelWF t = true →
      ∀ u ∈ descendPath s e fuel t, spanWithin u t := by
  intro fuel
  induction fuel with
  | zero =>
    intro fuelWF t _ u hu
    rw [descendPath, List.mem_singleton] at hu
    exact hu ▸ ⟨Nat.le_refl _, Nat.le_refl _⟩
  | succ f ih =>
    intro fuelWF t hwf u hu
    rw [descendPath] at hu
    cases hfind : t.children.find? (containsRange s e) with
    | none =>
      rw [hfind, List.mem_singleton] at hu
      exact hu ▸ ⟨Nat.le_refl _, Nat.le_refl _⟩
    | some c =>
      rw [hfind, List.mem_cons] at hu
      rcases hu with hu | hu
      · exact hu ▸ ⟨Nat.le_refl _, Nat.le_refl _⟩
      · cases fuelWF with
        | zero => rw [spanWF] at hwf; exact absurd hwf (by simp)
        | succ g =>
          cases t with
          | node ty name a b cs =>
            have hc := spanWF_children hwf c (List.mem_of_find?_eq_some hfind)
            have hin := ih g c hc.2.2 u hu
            exact ⟨le_trans hc.1 hin.1,
              le_trans hin.2 hc.2.1⟩

/-- Along the descent path, every later node lies within every earlier
one. -/
theorem descendPath_pairwise (s e : Nat) :
    ∀ (fuel fuelWF : Nat) (t : Tree), spanWF fuelWF t = true →
      List.Pairwise (fun u v => spanWithin v u) (descendPath s e fuel t) := by
  intro fuel
  induction fuel with
  | zero =>
    intro fuelWF t _
    rw [descendPath]
    exact List.pairwise_singleton _ _
  | succ f ih =>
    intro fuelWF t hwf
    rw [descendPath]
    cases hfind : t.children.find? (containsRange s e) with
    | none => exact List.pairwise_singleton _ _
    | some c =>
      cases fuelWF with
      | zero => rw [spanWF] at hwf; exact absurd hwf (by simp)
      | succ g =>
        cases t with
        | node ty name a b cs =>
          have hc := spanWF_children hwf c (List.mem_of_find?_eq_some hfind)
          refine List.Pairwise.cons ?_ (ih g c hc.2.2)
          intro v hv
          have hin := descendPath_within s e f g c hc.2.2 v hv
          exact ⟨le_trans hc.1 hin.1, le_trans hin.2 hc.2.1⟩

/-! ## Claim C4 -/

/-- **C4.** For every document text, span-well-formed syntax tree (the
tree-sitter guarantee) and target byte range contained in the root,
every node of the resolved scope chain has a body range containing the
target range, and the chain is ordered innermost to outermost: each
scope range lies within every later one, in particular its successor.
(With an unsupported language or failed parse the chain is empty and
the claim is vacuous.) -/
theorem c4_scope_chain_containment (text : Str) (tree : Tree)
    (sIdx eIdx fuelWF : Nat)
    (hwf : spanWF fuelWF tree = true)
    (hroot : containsRange sIdx eIdx tree = true) :
    (∀ sc ∈ getScopeInfo text tree sIdx eIdx,
      scopeContains sc (oneBasedPos text sIdx) (oneBasedPos text eIdx)) ∧
    List.Pairwise (fun inner outer => rangeWithin inner.range outer.range)
      (getScopeInfo text tree sIdx eIdx) := by
  constructor
  · intro sc hsc
    unfold getScopeInfo at hsc
    rw [List.mem_map] at hsc
    obtain ⟨t, ht, rfl⟩ := hsc
    have htpath : t ∈ descendPath sIdx eIdx tree.size tree :=
      List.mem_reverse.mp (List.mem_of_mem_filter ht)
    have hcont := descendPath_contains sIdx eIdx tree.size tree hroot t htpath
    rw [containsRange, Bool.and_eq_true, decide_eq_true_eq, decide_eq_true_eq] at hcont
    constructor
    · exact oneBasedPos_mono text hcont.1
    · exact oneBasedPos_mono text hcont.2
  · unfold getScopeInfo
    have hpw : List.Pairwise spanWithin
        ((descendPath sIdx eIdx tree.size tree).reverse.filter
          (fun t => isInterestingScope t.ty)) := by
      apply List.Pairwise.filter
      rw [List.pairwise_reverse]
      exact descendPath_pairwise sIdx eIdx tree.size fuelWF tree hwf
    exact hpw.map (nodeScope text) (fun u v huv =>
      ⟨oneBasedPos_mono text huv.1, oneBasedPos_mono text huv.2⟩)

/-- Witness for C4: a two-level tree (a class declaration containing a
method definition) over a concrete document, with the query range
inside the method body. -/
theorem c4_witness :
    (spanWF 3 (.node "class_declaration".data "K".data 0 40
        [.node "method_definition".data "m".data 10 30 []]) = true ∧
      containsRange 15 20 (.node "class_declaration".data "K".data 0 40
        [.node "method_definition".data "m".data 10 30 []]) = true) ∧
    ((∀ sc ∈ getScopeInfo "class K \x7b\nm() \x7b\nreturn 1;\n\x7d\n\x7d\n".data
        (.node "class_declaration".data "K".data 0 40
          [.node "method_definition".data "m".data 10 30 []]) 15 20,
      scopeContains sc
        (oneBasedPos "class K \x7b\nm() \x7b\nreturn 1;\n\x7d\n\x7d\n".data 15)
        (oneBasedPos "class K \x7b\nm() \x7b\nreturn 1;\n\x7d\n\x7d\n".data 20)) ∧
    List.Pairwise (fun inner outer => rangeWithin inner.range outer.range)
      (getScopeInfo "class K \x7b\nm() \x7b\nreturn 1;\n\x7d\n\x7d\n".data
        (.node "class_declaration".data "K".data 0 40
          [.node "method_definition".data "m".data 10 30 []]) 15 20)) :=
  ⟨⟨by decide, by decide⟩,
   c4_scope_chain_containment "class K \x7b\nm() \x7b\nreturn 1;\n\x7d\n\x7d\n".data
     (.node "class_declaration".data "K".data 0 40
       [.node "method_definition".data "m".data 10 30 []])
     15 20 3 (by decide) (by decide)⟩

end CodeArch
